import Mathlib

/-!
# TimeWheel.go — a hashed timing wheel

Shallow embedding of `src/TimeWheel.go`.

* Go `int` and `time.Duration` values are mathematical integers (`Int`); a
  duration is its nanosecond count.  Go's `/` and `%` truncate toward zero,
  which is `Int.tdiv` / `Int.tmod`.  The quantities computed by the wheel are
  bounded by the number of whole seconds in an `int64` duration plus the slot
  count, far away from the 64-bit wrap-around, so no `% 2^64` is applied.
* A runtime panic (integer division by zero, slice index out of range, a
  slice too long to allocate) is the result `none`.
* `interface{}` keys are `Option K` with `none` the nil interface; `K` is any
  type with decidable equality (Go compares the keys with `==`).
* `*list.List` buckets are Lean lists in front-to-back order; the slice of
  buckets is a list of lists.
* The `map[interface{}]int` registry `timer` is a function from keys to
  optional slot indices.
* `go w.job(task.key, task.data)` is recorded, in program order, in the list of
  dispatched tasks that a tick returns.
* Every `*TimeTask` carries a ghost `id` standing for the pointer identity of
  the heap object.
-/

set_option linter.unusedSectionVars false
set_option linter.unusedVariables false

namespace TW

/-! ## Data model -/

/-- Go's `int(d.Seconds())` for a duration `d` in nanoseconds: the number of
whole seconds, truncated toward zero.  `Seconds` goes through `float64`
(`float64(sec) + float64(nsec)/1e9`); below `2^24` seconds (about 194 days) the
result is exactly this quotient, from `2^24` seconds on the sum can round up to
the next whole second.  For `d >= 0` the sign of the result and whether it is
zero are the same in both; a general statement that depends on more than that
carries the bound `d < 2^24 s` as a hypothesis, and the evaluations below are
at durations of a few seconds. -/
def Seconds (d : Int) : Int := d.tdiv 1000000000

/-- The `TimeTask` struct.  `id` is a ghost field: the identity of the heap
object the `*TimeTask` pointer refers to. -/
structure TimeTask (K D : Type) where
  id : Nat
  delay : Int
  circle : Int
  key : Option K
  data : D
  isActive : Bool
  deriving DecidableEq

/-- The `TimeWheel` struct, without the ticker, the callback and the
channels. -/
structure TimeWheel (K D : Type) where
  tickInterval : Int
  slots : List (List (TimeTask K D))
  timer : Option K → Option Int
  currentPosition : Int
  slotNum : Int

variable {K D : Type} [DecidableEq K]

/-- The statement `w.timer[key] = pos`. -/
def timerSet (timer : Option K → Option Int) (key : Option K) (pos : Int) :
    Option K → Option Int :=
  fun k => if k = key then some pos else timer k

/-- The statement `delete(w.timer, key)`. -/
def timerDelete (timer : Option K → Option Int) (key : Option K) :
    Option K → Option Int :=
  fun k => if k = key then none else timer k

/-- The slice access `w.slots[i]`: `none` is the index-out-of-range panic. -/
def slotAt (slots : List (List (TimeTask K D))) (i : Int) : Option (List (TimeTask K D)) :=
  if 0 ≤ i then slots[i.toNat]? else none

/-! ## Operations -/

/-- `NewTimeWheel(interval, slotNum, job)`.  The outer `none` is a panic, the
inner `none` the nil result; the callback is `some _` when it is non-nil.
After the guard the struct literal runs `make([]*list.List, slotNum)`, which
panics when the runtime cannot allocate a slice of that length: `maxSlots` is
the longest slice of buckets the runtime can allocate (on a 64-bit platform
never more than `2^45`, because `makeslice` refuses more than `2^48` bytes).
`initSlots` then fills every one of the `slotNum` entries with an empty
list. -/
def NewTimeWheel {J : Type} (maxSlots : Int) (interval : Int) (slotNum : Int)
    (job : Option J) : Option (Option (TimeWheel K D)) :=
  if interval ≤ 0 ∨ slotNum ≤ 0 ∨ job.isNone then some none
  else if maxSlots < slotNum then none
  else some (some
    { tickInterval := interval
      slots := List.replicate slotNum.toNat []
      timer := fun _ => none
      currentPosition := 0
      slotNum := slotNum })

/-- `getPositionAndCircle(d)`: returns `(pos, circle)`.  Both divisions of
`delaySec / tvSec / w.slotNum` and the `% w.slotNum` panic on a zero divisor. -/
def getPositionAndCircle (w : TimeWheel K D) (d : Int) : Option (Int × Int) :=
  let delaySec := Seconds d
  let tvSec := Seconds w.tickInterval
  if tvSec = 0 ∨ w.slotNum = 0 then none
  else
    let circle := (delaySec.tdiv tvSec).tdiv w.slotNum
    let pos := (w.currentPosition + delaySec.tdiv tvSec).tmod w.slotNum
    some (pos, circle)

/-- `addTask(task)`: the task gets its `circle`, is pushed to the back of the
bucket `w.slots[pos]`, and a non-nil key is registered at `pos`. -/
def addTask (w : TimeWheel K D) (task : TimeTask K D) : Option (TimeWheel K D) :=
  match getPositionAndCircle w task.delay with
  | none => none
  | some pc =>
    match slotAt w.slots pc.1 with
    | none => none
    | some l =>
      some { w with
        slots := w.slots.set pc.1.toNat (l ++ [{ task with circle := pc.2 }])
        timer := if task.key.isSome then timerSet w.timer task.key pc.1 else w.timer }

/-- The loop of `removeTask` over one bucket.  Result: the tasks taken out of
the bucket (with `isActive` cleared) and the bucket that remains.

The loop body ends with `e = e.Next()` in both branches.  When the key
matches, `l.Remove(e)` has just run, and `container/list` clears the `next`,
`prev` and `list` fields of a removed element, so `e.Next()` is nil there and
the loop stops after the first matching task. -/
def removeScan (key : Option K) :
    List (TimeTask K D) → List (TimeTask K D) × List (TimeTask K D)
  | [] => ([], [])
  | t :: rest =>
    if t.key = key then ([{ t with isActive := false }], rest)
    else ((removeScan key rest).1, t :: (removeScan key rest).2)

/-- `removeTask(key)`: the new wheel and the tasks taken out of their bucket.
`delete(w.timer, task.key)` runs only inside the matching branch. -/
def removeTask (w : TimeWheel K D) (key : Option K) :
    Option (TimeWheel K D × List (TimeTask K D)) :=
  match w.timer key with
  | none => some (w, [])
  | some pos =>
    match slotAt w.slots pos with
    | none => none
    | some l =>
      some ({ w with
        slots := w.slots.set pos.toNat (removeScan key l).2
        timer := if (removeScan key l).1.isEmpty then w.timer else timerDelete w.timer key },
        (removeScan key l).1)

/-- `scanAndRunTask(l)` on the registry `timer`: the bucket that remains, the
tasks handed to the callback (in order), and the registry afterwards. -/
def scanAndRunTask (timer : Option K → Option Int) :
    List (TimeTask K D) →
      List (TimeTask K D) × List (TimeTask K D) × (Option K → Option Int)
  | [] => ([], [], timer)
  | t :: rest =>
    if 0 < t.circle then
      ({ t with circle := t.circle - 1 } :: (scanAndRunTask timer rest).1,
        (scanAndRunTask timer rest).2.1,
        (scanAndRunTask timer rest).2.2)
    else
      ((scanAndRunTask (if t.key.isSome then timerDelete timer t.key else timer) rest).1,
        (if t.isActive then
          t :: (scanAndRunTask (if t.key.isSome then timerDelete timer t.key else timer) rest).2.1
        else (scanAndRunTask (if t.key.isSome then timerDelete timer t.key else timer) rest).2.1),
        (scanAndRunTask (if t.key.isSome then timerDelete timer t.key else timer) rest).2.2)

/-- `tickHandler()`: scans the bucket at the current position, then advances
the position.  Returns the new wheel and the tasks dispatched by this tick. -/
def tickHandler (w : TimeWheel K D) : Option (TimeWheel K D × List (TimeTask K D)) :=
  match slotAt w.slots w.currentPosition with
  | none => none
  | some l =>
    some ({ w with
      slots := w.slots.set w.currentPosition.toNat (scanAndRunTask w.timer l).1
      timer := (scanAndRunTask w.timer l).2.2
      currentPosition :=
        if w.currentPosition = w.slotNum - 1 then 0 else w.currentPosition + 1 },
      (scanAndRunTask w.timer l).2.1)

/-- The events the loop of `Start` selects on (the stop event ends the loop
and is not modelled). -/
inductive Event (K D : Type) where
  | tick : Event K D
  | add (task : TimeTask K D) : Event K D
  | remove (key : Option K) : Event K D

/-- The event loop on a list of events, in arrival order.  Result: the final
wheel and, for every tick processed, the list of tasks it dispatched. -/
def run : TimeWheel K D → List (Event K D) →
    Option (TimeWheel K D × List (List (TimeTask K D)))
  | w, [] => some (w, [])
  | w, Event.tick :: evs =>
    match tickHandler w with
    | none => none
    | some (w1, fired) =>
      match run w1 evs with
      | none => none
      | some (w2, tr) => some (w2, fired :: tr)
  | w, Event.add task :: evs =>
    match addTask w task with
    | none => none
    | some w1 => run w1 evs
  | w, Event.remove key :: evs =>
    match removeTask w key with
    | none => none
    | some (w1, _) => run w1 evs

/-! ## Predicates on wheels and on event sequences -/

/-- Well-formed wheels: what `NewTimeWheel` establishes and every event keeps.
The tick interval and the slot count are positive, there are `slotNum`
buckets, the position is a valid index, and so is every registry value. -/
def WF (w : TimeWheel K D) : Prop :=
  0 < w.tickInterval ∧ 0 < w.slotNum ∧ (w.slots.length : Int) = w.slotNum ∧
    0 ≤ w.currentPosition ∧ w.currentPosition < w.slotNum ∧
    ∀ key pos, w.timer key = some pos → 0 ≤ pos ∧ pos < w.slotNum

/-- Number of tick events in a list of events. -/
def tickCount : List (Event K D) → Nat
  | [] => 0
  | Event.tick :: evs => tickCount evs + 1
  | Event.add _ :: evs => tickCount evs
  | Event.remove _ :: evs => tickCount evs

/-- A task as `AddTimer(delay, key, data)` builds it. -/
def mkTask (id : Nat) (delay : Int) (key : Option Nat) (data : Nat) : TimeTask Nat Nat :=
  { id := id, delay := delay, circle := 0, key := key, data := data, isActive := true }

/-- The value `2^45`: on a 64-bit platform `make([]*list.List, n)` panics for
every `n` above it. -/
def maxSliceLen : Int := 35184372088832

/-- The wheel `NewTimeWheel(interval, slotNum, job)` builds for positive
arguments. -/
def freshWheel (interval slotNum : Int) : TimeWheel Nat Nat :=
  { tickInterval := interval
    slots := List.replicate slotNum.toNat []
    timer := fun _ => none
    currentPosition := 0
    slotNum := slotNum }

/-- The task object `tid`, with key `k`, is the only task in the wheel that has
key `k`; it sits in the bucket `pos`, and the registry maps `k` to `pos`. -/
def Held (w : TimeWheel K D) (tid : Nat) (k : Option K) (pos : Int) : Prop :=
  w.timer k = some pos ∧ 0 ≤ pos ∧
    ∃ x : TimeTask K D, x.key = k ∧ x.id = tid ∧
      ∀ (i : Nat) (b : List (TimeTask K D)), w.slots[i]? = some b →
        b.filter (fun y => decide (y.key = k ∨ y.id = tid)) =
          if i = pos.toNat then [x] else []

/-- No bucket of the wheel holds the task object `tid`. -/
def GoneId (w : TimeWheel K D) (tid : Nat) : Prop :=
  ∀ (i : Nat) (b : List (TimeTask K D)), w.slots[i]? = some b → ∀ x ∈ b, x.id ≠ tid

/-- The task object `t` is in the wheel exactly once, `r` ticks away from the
tick that dispatches it: it sits in the bucket `(currentPosition + r) mod
slotNum` with `circle = r div slotNum`, and no other bucket holds it. -/
def Sched (w : TimeWheel K D) (t : TimeTask K D) (r : Nat) : Prop :=
  ∀ (i : Nat) (b : List (TimeTask K D)), w.slots[i]? = some b →
    b.filter (fun y => decide (y.id = t.id)) =
      if (i : Int) = (w.currentPosition + (r : Int)) % w.slotNum then
        [{ t with circle := (r : Int) / w.slotNum }]
      else []

/-- Two tasks with key 7 and different delays, and one with key 8. -/
def taskA : TimeTask Nat Nat := mkTask 0 1000000000 (some 7) 10

/-- See `taskA`. -/
def taskB : TimeTask Nat Nat := mkTask 1 2000000000 (some 7) 11

/-- See `taskA`. -/
def taskC : TimeTask Nat Nat := mkTask 2 2000000000 (some 8) 12

/-- A task with delay 5 s: on a 4-slot wheel with a 1 s tick it needs more than
one revolution. -/
def taskD : TimeTask Nat Nat := mkTask 3 5000000000 (some 9) 13

/-- The wheel `freshWheel 1000000000 4` after `taskD` has been added. -/
def wheelD : TimeWheel Nat Nat :=
  { tickInterval := 1000000000
    slots := [[], [{ taskD with circle := 1 }], [], []]
    timer := timerSet (fun _ => none) (some 9) 1
    currentPosition := 0
    slotNum := 4 }

/-- Seven ticks, with another task added and removed in between. -/
def eventsD : List (Event Nat Nat) :=
  [Event.tick, Event.add taskC, Event.tick, Event.remove (some 8), Event.tick,
    Event.tick, Event.tick, Event.tick, Event.tick]

/-- A wheel at position 2 whose current bucket holds two due tasks. -/
def wheelE : TimeWheel Nat Nat :=
  { tickInterval := 1000000000
    slots := [[], [], [taskA, taskC], []]
    timer := timerSet (timerSet (fun _ => none) (some 7) 2) (some 8) 2
    currentPosition := 2
    slotNum := 4 }

/-- `AddTimer(delay, key, data)`, as the list of requests it sends on
`addTaskChan`: none for `delay <= 0`, otherwise one new task (`circle` has the
zero value).  `id` is the ghost identity of the task object the call
allocates. -/
def AddTimer (id : Nat) (delay : Int) (key : Option K) (data : D) : List (Event K D) :=
  if delay ≤ 0 then []
  else [Event.add
    { id := id, delay := delay, circle := 0, key := key, data := data, isActive := true }]

/-- `RemoveTimer(key)`, as the list of requests it sends on `removeTaskChan`:
none for the nil key, otherwise the key. -/
def RemoveTimer (key : Option K) : List (Event K D) :=
  if key = none then [] else [Event.remove key]

/-- Every registry entry has a non-nil key and points to an existing bucket
that holds a task with that key. -/
def RegInv (w : TimeWheel K D) : Prop :=
  ∀ (k : Option K) (p : Int), w.timer k = some p →
    k ≠ none ∧ ∃ l, slotAt w.slots p = some l ∧ ∃ t ∈ l, t.key = k

/-- Every task in a bucket is active and has a non-negative circle. -/
def ActInv (w : TimeWheel K D) : Prop :=
  ∀ (i : Nat) (b : List (TimeTask K D)), w.slots[i]? = some b →
    ∀ t ∈ b, t.isActive = true ∧ 0 ≤ t.circle

/-- A wheel at position 0 whose current bucket holds a due task, a task with
two revolutions left, and a due task that is not active. -/
def wheelF : TimeWheel Nat Nat :=
  { tickInterval := 1000000000
    slots := [[taskA, { taskD with circle := 2 }, { taskC with isActive := false }],
      [], [], []]
    timer := timerSet (timerSet (timerSet (fun _ => none) (some 7) 0) (some 9) 0) (some 8) 0
    currentPosition := 0
    slotNum := 4 }

/-- The wheel `freshWheel 1000000000 4` after `taskA` was added and one tick
was processed. -/
def wheelG : TimeWheel Nat Nat :=
  { tickInterval := 1000000000
    slots := [[], [taskA], [], []]
    timer := timerSet (fun _ => none) (some 7) 1
    currentPosition := 1
    slotNum := 4 }

/-- The wheel `freshWheel 1000000000 4` after `taskA` and `taskB`, both with
key 7, were added. -/
def wheelH : TimeWheel Nat Nat :=
  { tickInterval := 1000000000
    slots := [[], [taskA], [taskB], []]
    timer := timerSet (timerSet (fun _ => none) (some 7) 1) (some 7) 2
    currentPosition := 0
    slotNum := 4 }

/-! ## Construction -/

theorem NewTimeWheel_some {J : Type} {maxSlots interval slotNum : Int} {job : Option J}
    {w : TimeWheel K D} (h : NewTimeWheel maxSlots interval slotNum job = some (some w)) :
    0 < interval ∧ 0 < slotNum ∧ slotNum ≤ maxSlots ∧ job ≠ none ∧
      w = { tickInterval := interval
            slots := List.replicate slotNum.toNat []
            timer := fun _ => none
            currentPosition := 0
            slotNum := slotNum } := by
  unfold NewTimeWheel at h
  by_cases hg : interval ≤ 0 ∨ slotNum ≤ 0 ∨ job.isNone = true
  · rw [if_pos hg] at h
    exact absurd h (by simp)
  · rw [if_neg hg] at h
    by_cases hm : maxSlots < slotNum
    · rw [if_pos hm] at h
      exact absurd h (by simp)
    · rw [if_neg hm] at h
      have hw := Option.some.inj (Option.some.inj h)
      simp only [not_or, not_le] at hg
      refine ⟨hg.1, hg.2.1, by omega, ?_, hw.symm⟩
      intro hj
      rw [hj] at hg
      exact hg.2.2 rfl

theorem NewTimeWheel_panics_beyond_limit {J : Type} (maxSlots interval slotNum : Int) (job : J)
    (hi : 0 < interval) (hn : 0 < slotNum) (hm : maxSlots < slotNum) :
    (NewTimeWheel maxSlots interval slotNum (some job) : Option (Option (TimeWheel K D))) =
      none := by
  unfold NewTimeWheel
  rw [if_neg, if_pos hm]
  simp only [Option.isNone_some, Bool.false_eq_true, or_false, not_or, not_le]
  exact ⟨hi, hn⟩

/-- C9 (counterexample): for `interval = 1s`, `slotNum = 2^48` and a non-nil
job, `make([]*list.List, slotNum)` panics, so `NewTimeWheel` returns neither
nil nor a wheel, even with the largest slice limit a 64-bit platform has. -/
theorem NewTimeWheel_huge_slotNum_panics :
    (0 : Int) < 1000000000 ∧ (0 : Int) < 281474976710656 ∧
      (NewTimeWheel maxSliceLen 1000000000 281474976710656 (some ()) :
        Option (Option (TimeWheel Nat Nat))) = none :=
  ⟨by decide, by decide, rfl⟩

/-- C9 (amended): `NewTimeWheel(interval, slotNum, job)` returns nil if and
only if `interval <= 0` or `slotNum <= 0` or `job` is nil; for every
`interval > 0`, non-nil job and `slotNum > 0` that is not above the longest
slice of buckets the runtime can allocate, it returns a wheel. -/
theorem NewTimeWheel_nil_iff_guard {J : Type} (maxSlots interval slotNum : Int)
    (job : Option J) :
    ((NewTimeWheel maxSlots interval slotNum job : Option (Option (TimeWheel K D))) =
        some none ↔ (interval ≤ 0 ∨ slotNum ≤ 0 ∨ job = none)) ∧
    (0 < interval → 0 < slotNum → slotNum ≤ maxSlots → job ≠ none →
      ∃ w : TimeWheel K D, NewTimeWheel maxSlots interval slotNum job = some (some w)) := by
  have hjob : job.isNone = true ↔ job = none := by
    cases job <;> simp
  constructor
  · unfold NewTimeWheel
    by_cases hg : interval ≤ 0 ∨ slotNum ≤ 0 ∨ job.isNone = true
    · rw [if_pos hg]
      refine ⟨fun _ => ?_, fun _ => rfl⟩
      rcases hg with h | h | h
      · exact Or.inl h
      · exact Or.inr (Or.inl h)
      · exact Or.inr (Or.inr (hjob.mp h))
    · rw [if_neg hg]
      constructor
      · intro h
        by_cases hm : maxSlots < slotNum
        · rw [if_pos hm] at h
          exact absurd h (by simp)
        · rw [if_neg hm] at h
          exact absurd h (by simp)
      · intro h
        exfalso
        apply hg
        rcases h with h | h | h
        · exact Or.inl h
        · exact Or.inr (Or.inl h)
        · exact Or.inr (Or.inr (hjob.mpr h))
  · intro hi hn hm hj
    refine ⟨{ tickInterval := interval
              slots := List.replicate slotNum.toNat []
              timer := fun _ => none
              currentPosition := 0
              slotNum := slotNum }, ?_⟩
    unfold NewTimeWheel
    rw [if_neg, if_neg (by omega)]
    intro hg
    rcases hg with h | h | h
    · omega
    · omega
    · exact hj (hjob.mp h)

/-- Witness for C9 (amended): a 1 s wheel with 4 slots is returned, and a
wheel with 0 slots is nil. -/
theorem NewTimeWheel_nil_iff_guard_witness :
    (∃ w : TimeWheel Nat Nat,
        NewTimeWheel maxSliceLen 1000000000 4 (some ()) = some (some w)) ∧
      (NewTimeWheel maxSliceLen 1000000000 0 (some ()) :
        Option (Option (TimeWheel Nat Nat))) = some none :=
  ⟨(NewTimeWheel_nil_iff_guard maxSliceLen 1000000000 4 (some ())).2
      (by decide) (by decide) (by decide) (by simp),
    (NewTimeWheel_nil_iff_guard maxSliceLen 1000000000 0 (some ())).1.mpr
      (Or.inr (Or.inl (by decide)))⟩

/-! ## Position and circle -/

/-- C1 (evaluation at the failing input): on a wheel with a 1.5 s tick and 10
slots at position 0, `getPositionAndCircle(3s)` returns slot 3, although
`floor(3s / 1.5s) = 2` ticks lead to slot 2. -/
theorem getPositionAndCircle_whole_seconds_only :
    getPositionAndCircle (freshWheel 1500000000 10) 3000000000 = some (3, 0) ∧
      ((0 : Int) + 3000000000 / 1500000000) % 10 = 2 := by
  decide

/-- C2 (evaluation at the failing input): `NewTimeWheel(100ms, 10, job)`
returns a wheel, and adding a task with delay 250 ms to it divides by zero. -/
theorem addTask_subsecond_tick_panics :
    (NewTimeWheel maxSliceLen 100000000 10 (some ()) : Option (Option (TimeWheel Nat Nat))) =
        some (some (freshWheel 100000000 10)) ∧
      getPositionAndCircle (freshWheel 100000000 10) 250000000 = none ∧
      addTask (freshWheel 100000000 10) (mkTask 0 250000000 (some 1) 0) = none := by
  refine ⟨rfl, by decide, rfl⟩

/-- C7 (evaluation at the failing input): with a 1.5 s tick and 2 slots, the
delays 1 s and 1 s + 2 * 1.5 s = 4 s get different slots and circles 0 and 2. -/
theorem getPositionAndCircle_period_shift_breaks :
    getPositionAndCircle (freshWheel 1500000000 2) 1000000000 = some (1, 0) ∧
      getPositionAndCircle (freshWheel 1500000000 2)
        (1000000000 + 2 * 1500000000) = some (0, 2) := by
  decide

/-! ## Removal -/

/-- C10: `removeTask(key)` for a key without registry entry returns with the
wheel unchanged (and takes no task out). -/
theorem removeTask_unknown_key (w : TimeWheel K D) (key : Option K)
    (h : w.timer key = none) : removeTask w key = some (w, []) := by
  unfold removeTask
  rw [h]

/-- Witness for C10 on a fresh wheel. -/
theorem removeTask_unknown_key_witness :
    (freshWheel 1000000000 4).timer (some 7) = none ∧
      removeTask (freshWheel 1000000000 4) (some 7) = some (freshWheel 1000000000 4, []) :=
  ⟨rfl, removeTask_unknown_key (freshWheel 1000000000 4) (some 7) rfl⟩

/-- C4 (evaluation at the failing input): two tasks with key 7 are added with
the same delay and land in slot 1; `removeTask(7)` then takes out only the
first of them.  The second stays in the bucket, the registry entry is gone,
and the second tick dispatches the task that was left behind. -/
theorem removeTask_stops_after_first_match :
    (run (freshWheel 1000000000 4)
        [Event.add (mkTask 0 1000000000 (some 7) 10),
         Event.add (mkTask 1 1000000000 (some 7) 11),
         Event.remove (some 7), Event.tick, Event.tick]).map
      (fun r => (r.1.slots, r.1.timer (some 7), r.2)) =
      some ([[], [], [], []], none, [[], [mkTask 1 1000000000 (some 7) 11]]) ∧
    (run (freshWheel 1000000000 4)
        [Event.add (mkTask 0 1000000000 (some 7) 10),
         Event.add (mkTask 1 1000000000 (some 7) 11),
         Event.remove (some 7)]).map
      (fun r => (r.1.slots, r.1.timer (some 7), r.2)) =
      some ([[], [mkTask 1 1000000000 (some 7) 11], [], []], none, []) := by
  constructor <;> rfl

/-! ## Tick -/

theorem slotAt_eq_some {slots : List (List (TimeTask K D))} {i : Int}
    {l : List (TimeTask K D)} :
    slotAt slots i = some l ↔ 0 ≤ i ∧ slots[i.toNat]? = some l := by
  unfold slotAt
  by_cases h : 0 ≤ i <;> simp [h]

theorem slotAt_set_self {slots : List (List (TimeTask K D))} {i : Int}
    {l b : List (TimeTask K D)} (h : slotAt slots i = some l) :
    slotAt (slots.set i.toNat b) i = some b := by
  rw [slotAt_eq_some] at h ⊢
  refine ⟨h.1, ?_⟩
  have hlt : i.toNat < slots.length := by
    rcases Nat.lt_or_ge i.toNat slots.length with h1 | h1
    · exact h1
    · rw [List.getElem?_eq_none h1] at h
      exact absurd h.2 (by simp)
  rw [List.getElem?_set]
  simp [hlt]

theorem scanAndRunTask_all_due (timer : Option K → Option Int) (l : List (TimeTask K D))
    (h : ∀ t ∈ l, t.circle = 0 ∧ t.isActive = true) :
    (scanAndRunTask timer l).1 = [] ∧ (scanAndRunTask timer l).2.1 = l := by
  induction l generalizing timer with
  | nil => exact ⟨rfl, rfl⟩
  | cons t rest ih =>
    have ht := h t (List.mem_cons_self t rest)
    have hrest : ∀ x ∈ rest, x.circle = 0 ∧ x.isActive = true :=
      fun x hx => h x (List.mem_cons_of_mem t hx)
    have hc : ¬ (0 < t.circle) := by rw [ht.1]; decide
    simp only [scanAndRunTask, hc, if_false, ht.2, if_true]
    exact ⟨(ih _ hrest).1, by rw [(ih _ hrest).2]⟩

/-- C8: when the bucket at the current position holds `n` tasks that are all
active with `circle = 0`, the tick dispatches exactly these tasks, each once
and in insertion order, and leaves that bucket empty. -/
theorem tickHandler_fires_whole_bucket (w : TimeWheel K D) (l : List (TimeTask K D))
    (hl : slotAt w.slots w.currentPosition = some l)
    (hdue : ∀ t ∈ l, t.circle = 0 ∧ t.isActive = true) :
    ∃ w1, tickHandler w = some (w1, l) ∧ slotAt w1.slots w.currentPosition = some [] := by
  have hs := scanAndRunTask_all_due w.timer l hdue
  have ht : tickHandler w = some ({ w with
      slots := w.slots.set w.currentPosition.toNat (scanAndRunTask w.timer l).1
      timer := (scanAndRunTask w.timer l).2.2
      currentPosition :=
        if w.currentPosition = w.slotNum - 1 then 0 else w.currentPosition + 1 },
      (scanAndRunTask w.timer l).2.1) := by
    unfold tickHandler
    rw [hl]
  rw [hs.2] at ht
  exact ⟨_, ht, slotAt_set_self hl |>.trans (by rw [hs.1])⟩

/-! ## Buckets and the slot slice -/

theorem getElem?_set_some {slots : List (List (TimeTask K D))} {n i : Nat}
    {b c : List (TimeTask K D)} (h : (slots.set n c)[i]? = some b) :
    (i = n ∧ b = c) ∨ (i ≠ n ∧ slots[i]? = some b) := by
  rw [List.getElem?_set] at h
  by_cases hin : n = i
  · rw [if_pos hin] at h
    by_cases hl : n < slots.length
    · rw [if_pos hl] at h
      exact Or.inl ⟨hin.symm, (Option.some.inj h).symm⟩
    · rw [if_neg hl] at h
      exact absurd h (by simp)
  · rw [if_neg hin] at h
    exact Or.inr ⟨fun e => hin e.symm, h⟩

theorem slotAt_lt {slots : List (List (TimeTask K D))} {i : Int}
    {l : List (TimeTask K D)} (h : slotAt slots i = some l) :
    0 ≤ i ∧ i < (slots.length : Int) := by
  rw [slotAt_eq_some] at h
  refine ⟨h.1, ?_⟩
  rcases Nat.lt_or_ge i.toNat slots.length with h1 | h1
  · omega
  · rw [List.getElem?_eq_none h1] at h
    exact absurd h.2 (by simp)

theorem slotAt_of_lt (slots : List (List (TimeTask K D))) (i : Int)
    (h0 : 0 ≤ i) (h1 : i < (slots.length : Int)) : ∃ l, slotAt slots i = some l := by
  have hlt : i.toNat < slots.length := by omega
  exact ⟨slots[i.toNat], slotAt_eq_some.mpr ⟨h0, List.getElem?_eq_getElem hlt⟩⟩

/-! ## Inversion of the three handlers -/

theorem tickHandler_some {w : TimeWheel K D} {r : TimeWheel K D × List (TimeTask K D)}
    (h : tickHandler w = some r) :
    ∃ l, slotAt w.slots w.currentPosition = some l ∧
      r.1.slots = w.slots.set w.currentPosition.toNat (scanAndRunTask w.timer l).1 ∧
      r.1.timer = (scanAndRunTask w.timer l).2.2 ∧
      r.1.currentPosition =
        (if w.currentPosition = w.slotNum - 1 then 0 else w.currentPosition + 1) ∧
      r.1.slotNum = w.slotNum ∧ r.1.tickInterval = w.tickInterval ∧
      r.2 = (scanAndRunTask w.timer l).2.1 := by
  unfold tickHandler at h
  cases hl : slotAt w.slots w.currentPosition with
  | none => rw [hl] at h; exact absurd h (by simp)
  | some l =>
    rw [hl] at h
    have h1 := Option.some.inj h
    subst h1
    exact ⟨l, rfl, rfl, rfl, rfl, rfl, rfl, rfl⟩

theorem addTask_some {w w1 : TimeWheel K D} {task : TimeTask K D}
    (h : addTask w task = some w1) :
    ∃ pc l, getPositionAndCircle w task.delay = some pc ∧ slotAt w.slots pc.1 = some l ∧
      w1.slots = w.slots.set pc.1.toNat (l ++ [{ task with circle := pc.2 }]) ∧
      w1.timer = (if task.key.isSome then timerSet w.timer task.key pc.1 else w.timer) ∧
      w1.currentPosition = w.currentPosition ∧
      w1.slotNum = w.slotNum ∧ w1.tickInterval = w.tickInterval := by
  unfold addTask at h
  cases hpc : getPositionAndCircle w task.delay with
  | none => rw [hpc] at h; exact absurd h (by simp)
  | some pc =>
    rw [hpc] at h
    dsimp only at h
    cases hl : slotAt w.slots pc.1 with
    | none => rw [hl] at h; exact absurd h (by simp)
    | some l =>
      rw [hl] at h
      have h1 := Option.some.inj h
      subst h1
      exact ⟨pc, l, rfl, hl, rfl, rfl, rfl, rfl, rfl⟩

theorem removeTask_some {w : TimeWheel K D} {key : Option K}
    {r : TimeWheel K D × List (TimeTask K D)} (h : removeTask w key = some r) :
    (w.timer key = none ∧ r = (w, [])) ∨
    ∃ pos l, w.timer key = some pos ∧ slotAt w.slots pos = some l ∧
      r.1.slots = w.slots.set pos.toNat (removeScan key l).2 ∧
      r.1.timer =
        (if (removeScan key l).1.isEmpty then w.timer else timerDelete w.timer key) ∧
      r.1.currentPosition = w.currentPosition ∧
      r.1.slotNum = w.slotNum ∧ r.1.tickInterval = w.tickInterval ∧
      r.2 = (removeScan key l).1 := by
  unfold removeTask at h
  cases ht : w.timer key with
  | none =>
    rw [ht] at h
    exact Or.inl ⟨rfl, (Option.some.inj h).symm⟩
  | some pos =>
    rw [ht] at h
    dsimp only at h
    cases hl : slotAt w.slots pos with
    | none => rw [hl] at h; exact absurd h (by simp)
    | some l =>
      rw [hl] at h
      have h1 := Option.some.inj h
      subst h1
      exact Or.inr ⟨pos, l, rfl, hl, rfl, rfl, rfl, rfl, rfl, rfl⟩

/-! ## The two bucket loops -/

theorem scanAndRunTask_keep (timer : Option K → Option Int) (l : List (TimeTask K D)) :
    (scanAndRunTask timer l).1 =
      (l.filter (fun t => decide (0 < t.circle))).map
        (fun t => { t with circle := t.circle - 1 }) := by
  induction l generalizing timer with
  | nil => rfl
  | cons t rest ih =>
    by_cases hc : 0 < t.circle
    · simp only [scanAndRunTask, hc, if_true, List.filter_cons, decide_True, List.map_cons, ih]
    · simp only [scanAndRunTask, hc, if_false, List.filter_cons, decide_False, ih]
      simp

theorem scanAndRunTask_fired (timer : Option K → Option Int) (l : List (TimeTask K D)) :
    (scanAndRunTask timer l).2.1 =
      l.filter (fun t => !decide (0 < t.circle) && t.isActive) := by
  induction l generalizing timer with
  | nil => rfl
  | cons t rest ih =>
    by_cases hc : 0 < t.circle
    · simp only [scanAndRunTask, hc, if_true, List.filter_cons, decide_True, ih]
      simp
    · by_cases ha : t.isActive = true
      · simp only [scanAndRunTask, hc, if_false, ha, if_true, List.filter_cons, decide_False, ih]
        simp
      · simp only [scanAndRunTask, hc, if_false, ha, List.filter_cons, decide_False, ih]
        simp

theorem scanAndRunTask_timer_same (timer : Option K → Option Int) (l : List (TimeTask K D))
    (k : Option K)
    (h : ∀ t ∈ l, ¬ 0 < t.circle → t.key.isSome = true → t.key ≠ k) :
    (scanAndRunTask timer l).2.2 k = timer k := by
  induction l generalizing timer with
  | nil => rfl
  | cons t rest ih =>
    have hrest : ∀ x ∈ rest, ¬ 0 < x.circle → x.key.isSome = true → x.key ≠ k :=
      fun x hx => h x (List.mem_cons_of_mem t hx)
    by_cases hc : 0 < t.circle
    · simp only [scanAndRunTask, hc, if_true]
      exact ih timer hrest
    · simp only [scanAndRunTask, hc, if_false]
      rw [ih _ hrest]
      by_cases hk : t.key.isSome = true
      · have hne := h t (List.mem_cons_self t rest) hc hk
        simp only [hk, if_true, timerDelete]
        rw [if_neg (fun e => hne e.symm)]
      · simp only [hk]
        rfl

theorem scanAndRunTask_timer_some (timer : Option K → Option Int) (l : List (TimeTask K D))
    (k : Option K) (v : Int) (h : (scanAndRunTask timer l).2.2 k = some v) :
    timer k = some v := by
  induction l generalizing timer with
  | nil => exact h
  | cons t rest ih =>
    by_cases hc : 0 < t.circle
    · simp only [scanAndRunTask, hc, if_true] at h
      exact ih timer h
    · simp only [scanAndRunTask, hc, if_false] at h
      have h1 := ih _ h
      by_cases hk : t.key.isSome = true
      · simp only [hk, if_true, timerDelete] at h1
        by_cases hkk : k = t.key
        · rw [if_pos hkk] at h1
          exact absurd h1 (by simp)
        · rw [if_neg hkk] at h1
          exact h1
      · simp only [hk] at h1
        exact h1

theorem removeScan_sublist (key : Option K) (l : List (TimeTask K D)) :
    (removeScan key l).2.Sublist l := by
  induction l with
  | nil => exact List.Sublist.refl _
  | cons t rest ih =>
    by_cases hk : t.key = key
    · simp only [removeScan, hk, if_true]
      exact List.sublist_cons_self t rest
    · simp only [removeScan, hk, if_false]
      exact ih.cons₂ t

theorem removeScan_filter (key : Option K) (l : List (TimeTask K D))
    (p : TimeTask K D → Bool) (h : ∀ y ∈ l, p y = true → y.key ≠ key) :
    (removeScan key l).2.filter p = l.filter p := by
  induction l with
  | nil => rfl
  | cons t rest ih =>
    have hrest : ∀ y ∈ rest, p y = true → y.key ≠ key :=
      fun y hy => h y (List.mem_cons_of_mem t hy)
    by_cases hk : t.key = key
    · have hp : ¬ p t = true := fun hp => h t (List.mem_cons_self t rest) hp hk
      simp only [removeScan, hk, if_true, List.filter_cons, hp, if_false]
      simp
    · simp only [removeScan, hk, if_false, List.filter_cons, ih hrest]

theorem removeScan_filter_single (key : Option K) (l : List (TimeTask K D))
    (p : TimeTask K D → Bool) (x : TimeTask K D) (hl : l.filter p = [x])
    (hx : x.key = key) (hp : ∀ y : TimeTask K D, y.key = key → p y = true) :
    (removeScan key l).2.filter p = [] := by
  induction l with
  | nil => simp at hl
  | cons t rest ih =>
    by_cases hk : t.key = key
    · have hpt := hp t hk
      simp only [List.filter_cons, hpt, if_true] at hl
      simp only [removeScan, hk, if_true]
      exact (List.cons.inj hl).2
    · by_cases hpt : p t = true
      · simp only [List.filter_cons, hpt, if_true] at hl
        have := (List.cons.inj hl).1
        exact absurd (this ▸ hx) hk
      · simp only [List.filter_cons, hpt, if_false] at hl
        simp only [removeScan, hk, if_false, List.filter_cons, hpt]
        exact ih hl

theorem removeScan_none_removed (key : Option K) (l : List (TimeTask K D))
    (h : (removeScan key l).1.isEmpty = true) :
    (removeScan key l).2 = l ∧ ∀ y ∈ l, y.key ≠ key := by
  induction l with
  | nil => exact ⟨rfl, fun y hy => absurd hy (List.not_mem_nil y)⟩
  | cons t rest ih =>
    by_cases hk : t.key = key
    · simp [removeScan, hk] at h
    · simp only [removeScan, hk, if_false] at h ⊢
      have h1 := ih h
      refine ⟨by rw [h1.1], ?_⟩
      intro y hy
      rcases List.mem_cons.mp hy with e | e
      · rw [e]; exact hk
      · exact h1.2 y e

theorem filter_keep (timer : Option K → Option Int) (l : List (TimeTask K D))
    (p : TimeTask K D → Bool)
    (hp : ∀ y : TimeTask K D, p { y with circle := y.circle - 1 } = p y) :
    (scanAndRunTask timer l).1.filter p =
      ((l.filter p).filter (fun t => decide (0 < t.circle))).map
        (fun t => { t with circle := t.circle - 1 }) := by
  rw [scanAndRunTask_keep]
  induction l with
  | nil => rfl
  | cons t rest ih =>
    by_cases hc : 0 < t.circle <;> by_cases hpt : p t = true <;>
      simp [List.filter_cons, hc, hpt, hp, ih]

theorem filter_fired (timer : Option K → Option Int) (l : List (TimeTask K D))
    (p : TimeTask K D → Bool) :
    (scanAndRunTask timer l).2.1.filter p =
      (l.filter p).filter (fun t => !decide (0 < t.circle) && t.isActive) := by
  rw [scanAndRunTask_fired, List.filter_filter, List.filter_filter]
  congr 1
  funext a
  exact Bool.and_comm _ _

theorem not_mem_of_filter_nil {l : List (TimeTask K D)} {p : TimeTask K D → Bool}
    (h : l.filter p = []) : ∀ y ∈ l, ¬ p y = true := by
  intro y hy hp
  have : y ∈ l.filter p := List.mem_filter.mpr ⟨hy, hp⟩
  rw [h] at this
  exact absurd this (List.not_mem_nil y)

theorem GoneId_tickHandler {w : TimeWheel K D} {r : TimeWheel K D × List (TimeTask K D)}
    {tid : Nat} (hg : GoneId w tid) (h : tickHandler w = some r) :
    GoneId r.1 tid ∧ ∀ x ∈ r.2, x.id ≠ tid := by
  obtain ⟨l, hl, hs, -, -, -, -, hf⟩ := tickHandler_some h
  have hl2 := slotAt_eq_some.mp hl
  constructor
  · intro i b hb x hx
    rw [hs] at hb
    rcases getElem?_set_some hb with ⟨hi, hbe⟩ | ⟨hi, hbo⟩
    · subst hbe
      rw [scanAndRunTask_keep] at hx
      obtain ⟨x0, hx0, hxe⟩ := List.mem_map.mp hx
      rw [← hxe]
      exact hg _ l hl2.2 x0 (List.mem_of_mem_filter hx0)
    · exact hg i b hbo x hx
  · intro x hx
    rw [hf, scanAndRunTask_fired] at hx
    exact hg _ l hl2.2 x (List.mem_of_mem_filter hx)

theorem GoneId_addTask {w w1 : TimeWheel K D} {task : TimeTask K D} {tid : Nat}
    (hg : GoneId w tid) (hid : task.id ≠ tid) (h : addTask w task = some w1) :
    GoneId w1 tid := by
  obtain ⟨pc, l, -, hl, hs, -, -, -, -⟩ := addTask_some h
  have hl2 := slotAt_eq_some.mp hl
  intro i b hb x hx
  rw [hs] at hb
  rcases getElem?_set_some hb with ⟨hi, hbe⟩ | ⟨hi, hbo⟩
  · subst hbe
    rcases List.mem_append.mp hx with hm | hm
    · exact hg _ l hl2.2 x hm
    · rw [List.mem_singleton.mp hm]; exact hid
  · exact hg i b hbo x hx

theorem GoneId_removeTask {w : TimeWheel K D} {key : Option K}
    {r : TimeWheel K D × List (TimeTask K D)} {tid : Nat}
    (hg : GoneId w tid) (h : removeTask w key = some r) : GoneId r.1 tid := by
  rcases removeTask_some h with ⟨-, hr⟩ | ⟨pos, l, -, hl, hs, -, -, -, -, -⟩
  · rw [hr]; exact hg
  · have hl2 := slotAt_eq_some.mp hl
    intro i b hb x hx
    rw [hs] at hb
    rcases getElem?_set_some hb with ⟨hi, hbe⟩ | ⟨hi, hbo⟩
    · subst hbe
      exact hg _ l hl2.2 x ((removeScan_sublist key l).subset hx)
    · exact hg i b hbo x hx

theorem GoneId_run {w s : TimeWheel K D} {evs : List (Event K D)}
    {tr : List (List (TimeTask K D))} {tid : Nat} (hg : GoneId w tid)
    (hevs : ∀ t2, Event.add t2 ∈ evs → t2.id ≠ tid)
    (h : run w evs = some (s, tr)) : ∀ l ∈ tr, ∀ x ∈ l, x.id ≠ tid := by
  induction evs generalizing w tr with
  | nil =>
    simp only [run] at h
    rw [← (Prod.mk.inj (Option.some.inj h)).2]
    intro l hl
    exact absurd hl (List.not_mem_nil l)
  | cons e evs ih =>
    have hrest : ∀ t2, Event.add t2 ∈ evs → t2.id ≠ tid :=
      fun t2 ht2 => hevs t2 (List.mem_cons_of_mem e ht2)
    cases e with
    | tick =>
      simp only [run] at h
      cases hr : tickHandler w with
      | none => rw [hr] at h; exact absurd h (by simp)
      | some r =>
        rw [hr] at h
        dsimp only at h
        cases hr2 : run r.1 evs with
        | none => rw [hr2] at h; exact absurd h (by simp)
        | some r2 =>
          rw [hr2] at h
          dsimp only at h
          have he := Prod.mk.inj (Option.some.inj h)
          have hstep := GoneId_tickHandler hg hr
          rw [← he.2]
          intro l hl
          rcases List.mem_cons.mp hl with e1 | e1
          · rw [e1]; exact hstep.2
          · exact ih hstep.1 hrest (by rw [hr2, ← he.1]) l e1
    | add task =>
      simp only [run] at h
      cases hr : addTask w task with
      | none => rw [hr] at h; exact absurd h (by simp)
      | some w1 =>
        rw [hr] at h
        dsimp only at h
        exact ih (GoneId_addTask hg (hevs task (List.mem_cons_self _ _)) hr) hrest h
    | remove key =>
      simp only [run] at h
      cases hr : removeTask w key with
      | none => rw [hr] at h; exact absurd h (by simp)
      | some r =>
        rw [hr] at h
        dsimp only at h
        exact ih (GoneId_removeTask hg hr) hrest h

theorem GoneId_of_filter_nil {w : TimeWheel K D} {tid : Nat} {k : Option K}
    (h : ∀ (i : Nat) (b : List (TimeTask K D)), w.slots[i]? = some b →
      b.filter (fun y => decide (y.key = k ∨ y.id = tid)) = []) : GoneId w tid := by
  intro i b hb x hx hid
  exact not_mem_of_filter_nil (h i b hb) x hx (by simp [hid])

theorem Held_tickHandler {w : TimeWheel K D} {r : TimeWheel K D × List (TimeTask K D)}
    {tid : Nat} {k : Option K} {pos : Int} (hh : Held w tid k pos)
    (h : tickHandler w = some r) : Held r.1 tid k pos ∨ GoneId r.1 tid := by
  obtain ⟨l, hl, hs, ht, -, -, -, -⟩ := tickHandler_some h
  have hl2 := slotAt_eq_some.mp hl
  obtain ⟨htk, hpos, x, hxk, hxi, hx⟩ := hh
  have hlf := hx _ l hl2.2
  have hkeep := filter_keep w.timer l (fun y => decide (y.key = k ∨ y.id = tid))
    (fun y => rfl)
  by_cases hcase : w.currentPosition.toNat = pos.toNat ∧ ¬ 0 < x.circle
  · right
    apply GoneId_of_filter_nil (k := k)
    intro i b hb
    rw [hs] at hb
    rcases getElem?_set_some hb with ⟨hi, hbe⟩ | ⟨hi, hbo⟩
    · subst hbe
      rw [hkeep, hlf, if_pos hcase.1]
      simp [hcase.2]
    · rw [hx i b hbo, if_neg (fun e => hi (e.trans hcase.1.symm))]
  · left
    have htimer : r.1.timer k = some pos := by
      rw [ht, scanAndRunTask_timer_same, htk]
      intro y hy hyc hyk hykk
      have hmem : y ∈ l.filter (fun y => decide (y.key = k ∨ y.id = tid)) :=
        List.mem_filter.mpr ⟨hy, by simp [hykk]⟩
      rw [hlf] at hmem
      by_cases hcp : w.currentPosition.toNat = pos.toNat
      · rw [if_pos hcp] at hmem
        have hyx := List.mem_singleton.mp hmem
        exact hcase ⟨hcp, hyx ▸ hyc⟩
      · rw [if_neg hcp] at hmem
        exact absurd hmem (List.not_mem_nil y)
    by_cases hcp : w.currentPosition.toNat = pos.toNat
    · have hxc : 0 < x.circle := by
        by_contra hc
        exact hcase ⟨hcp, hc⟩
      refine ⟨htimer, hpos, { x with circle := x.circle - 1 }, hxk, hxi, ?_⟩
      intro i b hb
      rw [hs] at hb
      rcases getElem?_set_some hb with ⟨hi, hbe⟩ | ⟨hi, hbo⟩
      · subst hbe
        rw [hkeep, hlf, if_pos hcp, if_pos (hi.trans hcp)]
        simp [hxc]
      · rw [hx i b hbo, if_neg (fun e => hi (e.trans hcp.symm)),
          if_neg (fun e => hi (e.trans hcp.symm))]
    · refine ⟨htimer, hpos, x, hxk, hxi, ?_⟩
      intro i b hb
      rw [hs] at hb
      rcases getElem?_set_some hb with ⟨hi, hbe⟩ | ⟨hi, hbo⟩
      · subst hbe
        rw [hkeep, hlf, if_neg hcp, if_neg (fun e => hcp (hi.symm.trans e))]
        rfl
      · exact hx i b hbo

theorem Held_addTask {w w1 : TimeWheel K D} {task : TimeTask K D}
    {tid : Nat} {k : Option K} {pos : Int} (hh : Held w tid k pos)
    (hkey : task.key ≠ k) (hid : task.id ≠ tid) (h : addTask w task = some w1) :
    Held w1 tid k pos := by
  obtain ⟨pc, l, -, hl, hs, ht, -, -, -⟩ := addTask_some h
  have hl2 := slotAt_eq_some.mp hl
  obtain ⟨htk, hpos, x, hxk, hxi, hx⟩ := hh
  refine ⟨?_, hpos, x, hxk, hxi, ?_⟩
  · rw [ht]
    by_cases hk : task.key.isSome = true
    · rw [if_pos hk]
      unfold timerSet
      rw [if_neg (fun e => hkey e.symm)]
      exact htk
    · rw [if_neg hk]; exact htk
  · intro i b hb
    rw [hs] at hb
    rcases getElem?_set_some hb with ⟨hi, hbe⟩ | ⟨hi, hbo⟩
    · subst hbe
      rw [List.filter_append, hx _ l hl2.2, hi]
      simp [hkey, hid]
    · exact hx i b hbo

theorem Held_removeTask_other {w : TimeWheel K D} {key : Option K}
    {r : TimeWheel K D × List (TimeTask K D)}
    {tid : Nat} {k : Option K} {pos : Int} (hh : Held w tid k pos)
    (hkey : key ≠ k) (h : removeTask w key = some r) : Held r.1 tid k pos := by
  rcases removeTask_some h with ⟨-, hr⟩ | ⟨p1, l, -, hl, hs, ht, -, -, -, -⟩
  · rw [hr]; exact hh
  · have hl2 := slotAt_eq_some.mp hl
    obtain ⟨htk, hpos, x, hxk, hxi, hx⟩ := hh
    refine ⟨?_, hpos, x, hxk, hxi, ?_⟩
    · rw [ht]
      by_cases he : (removeScan key l).1.isEmpty = true
      · rw [if_pos he]; exact htk
      · rw [if_neg he]
        unfold timerDelete
        rw [if_neg (fun e => hkey e.symm)]
        exact htk
    · intro i b hb
      rw [hs] at hb
      rcases getElem?_set_some hb with ⟨hi, hbe⟩ | ⟨hi, hbo⟩
      · subst hbe
        rw [removeScan_filter, hi]
        · exact hx _ l hl2.2
        · intro y hy hpy hyk
          have hmem : y ∈ l.filter (fun y => decide (y.key = k ∨ y.id = tid)) :=
            List.mem_filter.mpr ⟨hy, hpy⟩
          rw [hx _ l hl2.2] at hmem
          split at hmem
          · have hyx := List.mem_singleton.mp hmem
            rw [hyx, hxk] at hyk
            exact hkey hyk.symm
          · exact absurd hmem (List.not_mem_nil y)
      · exact hx i b hbo

theorem Held_removeTask_self {w : TimeWheel K D}
    {r : TimeWheel K D × List (TimeTask K D)}
    {tid : Nat} {k : Option K} {pos : Int} (hh : Held w tid k pos)
    (h : removeTask w k = some r) : GoneId r.1 tid := by
  obtain ⟨htk, hpos, x, hxk, hxi, hx⟩ := hh
  rcases removeTask_some h with ⟨hn, -⟩ | ⟨p1, l, hp1, hl, hs, -, -, -, -, -⟩
  · rw [htk] at hn
    exact absurd hn (by simp)
  · have hl2 := slotAt_eq_some.mp hl
    rw [htk] at hp1
    have hpe : pos = p1 := Option.some.inj hp1
    subst hpe
    apply GoneId_of_filter_nil (k := k)
    intro i b hb
    rw [hs] at hb
    rcases getElem?_set_some hb with ⟨hi, hbe⟩ | ⟨hi, hbo⟩
    · subst hbe
      have hlf := hx _ l hl2.2
      rw [if_pos rfl] at hlf
      exact removeScan_filter_single k l _ x hlf hxk (fun y hy => by simp [hy])
    · rw [hx i b hbo, if_neg hi]

theorem Held_or_GoneId_run {w s : TimeWheel K D} {evs : List (Event K D)}
    {tr : List (List (TimeTask K D))} {tid : Nat} {k : Option K} {pos : Int}
    (hh : Held w tid k pos ∨ GoneId w tid)
    (hevs : ∀ t2, Event.add t2 ∈ evs → t2.key ≠ k ∧ t2.id ≠ tid)
    (h : run w evs = some (s, tr)) : Held s tid k pos ∨ GoneId s tid := by
  induction evs generalizing w tr with
  | nil =>
    simp only [run] at h
    rw [← (Prod.mk.inj (Option.some.inj h)).1]; exact hh
  | cons e evs ih =>
    have hrest : ∀ t2, Event.add t2 ∈ evs → t2.key ≠ k ∧ t2.id ≠ tid :=
      fun t2 ht2 => hevs t2 (List.mem_cons_of_mem e ht2)
    cases e with
    | tick =>
      simp only [run] at h
      cases hr : tickHandler w with
      | none => rw [hr] at h; exact absurd h (by simp)
      | some r =>
        rw [hr] at h
        dsimp only at h
        cases hr2 : run r.1 evs with
        | none => rw [hr2] at h; exact absurd h (by simp)
        | some r2 =>
          rw [hr2] at h
          dsimp only at h
          have he := Prod.mk.inj (Option.some.inj h)
          have hstep : Held r.1 tid k pos ∨ GoneId r.1 tid := by
            rcases hh with hh | hh
            · exact Held_tickHandler hh hr
            · exact Or.inr (GoneId_tickHandler hh hr).1
          exact ih hstep hrest (by rw [hr2, ← he.1])
    | add task =>
      simp only [run] at h
      cases hr : addTask w task with
      | none => rw [hr] at h; exact absurd h (by simp)
      | some w1 =>
        rw [hr] at h
        dsimp only at h
        have hk := hevs task (List.mem_cons_self _ _)
        have hstep : Held w1 tid k pos ∨ GoneId w1 tid := by
          rcases hh with hh | hh
          · exact Or.inl (Held_addTask hh hk.1 hk.2 hr)
          · exact Or.inr (GoneId_addTask hh hk.2 hr)
        exact ih hstep hrest h
    | remove key =>
      simp only [run] at h
      cases hr : removeTask w key with
      | none => rw [hr] at h; exact absurd h (by simp)
      | some r =>
        rw [hr] at h
        dsimp only at h
        have hstep : Held r.1 tid k pos ∨ GoneId r.1 tid := by
          rcases hh with hh | hh
          · by_cases hkk : key = k
            · subst hkk
              exact Or.inr (Held_removeTask_self hh hr)
            · exact Or.inl (Held_removeTask_other hh hkk hr)
          · exact Or.inr (GoneId_removeTask hh hr)
        exact ih hstep hrest h

theorem Held_after_add {w w1 : TimeWheel K D} {t : TimeTask K D}
    (hkey : t.key ≠ none)
    (hclean : ∀ b ∈ w.slots, ∀ x ∈ b, x.key ≠ t.key ∧ x.id ≠ t.id)
    (h : addTask w t = some w1) : ∃ pos, Held w1 t.id t.key pos := by
  obtain ⟨pc, l, -, hl, hs, ht, -, -, -⟩ := addTask_some h
  have hl2 := slotAt_eq_some.mp hl
  have hnil : ∀ (i : Nat) (b : List (TimeTask K D)), w.slots[i]? = some b →
      b.filter (fun y => decide (y.key = t.key ∨ y.id = t.id)) = [] := by
    intro i b hb
    rw [List.filter_eq_nil_iff]
    intro y hy
    have := hclean b (List.getElem?_mem hb) y hy
    simp [this.1, this.2]
  refine ⟨pc.1, ?_, hl2.1, { t with circle := pc.2 }, rfl, rfl, ?_⟩
  · rw [ht, if_pos (Option.isSome_iff_ne_none.mpr hkey)]
    unfold timerSet
    rw [if_pos rfl]
  · intro i b hb
    rw [hs] at hb
    rcases getElem?_set_some hb with ⟨hi, hbe⟩ | ⟨hi, hbo⟩
    · subst hbe
      rw [List.filter_append, hnil _ l hl2.2, if_pos hi]
      simp
    · rw [hnil i b hbo, if_neg hi]

/-- C5 (counterexample): on a new wheel with 4 slots and a 1 s tick, a task
with key 7 and delay 1 s is added, then a second task with key 7 and delay
2 s; the remove request for 7 is processed before any tick, and the second
tick still dispatches the first task. -/
theorem cancelled_task_fires_after_key_reuse :
    (NewTimeWheel maxSliceLen 1000000000 4 (some ()) : Option (Option (TimeWheel Nat Nat))) =
        some (some (freshWheel 1000000000 4)) ∧
      ∃ s, run (freshWheel 1000000000 4)
        [Event.add taskA, Event.add taskB, Event.remove (some 7), Event.tick, Event.tick] =
          some (s, [[], [taskA]]) :=
  ⟨rfl, _, rfl⟩

/-- C5 (amended): let a task with non-nil key `k` be added in a wheel state
`s0` (any state, in particular one reached from a newly constructed wheel) in
which no bucket holds a task with key `k`, and let no other add request with
key `k` be processed before the remove request for `k` (every add request
carries a task object of its own).  Once the remove request for `k` has been
processed, no later tick invokes the callback for that task. -/
theorem cancelled_task_never_fires (s0 s1 s2 s3 s4 : TimeWheel K D) (t : TimeTask K D)
    (mid post : List (Event K D)) (tr2 tr4 : List (List (TimeTask K D)))
    (removed : List (TimeTask K D))
    (hkey : t.key ≠ none)
    (hclean : ∀ b ∈ s0.slots, ∀ x ∈ b, x.key ≠ t.key ∧ x.id ≠ t.id)
    (hadd : addTask s0 t = some s1)
    (hmid : ∀ t2, Event.add t2 ∈ mid → t2.key ≠ t.key ∧ t2.id ≠ t.id)
    (hrun_mid : run s1 mid = some (s2, tr2))
    (hrem : removeTask s2 t.key = some (s3, removed))
    (hpost : ∀ t2, Event.add t2 ∈ post → t2.id ≠ t.id)
    (hrun_post : run s3 post = some (s4, tr4)) :
    ∀ l ∈ tr4, ∀ x ∈ l, x.id ≠ t.id := by
  obtain ⟨pos, hheld⟩ := Held_after_add hkey hclean hadd
  have h2 := Held_or_GoneId_run (Or.inl hheld) hmid hrun_mid
  have h3 : GoneId s3 t.id := by
    rcases h2 with h2 | h2
    · exact Held_removeTask_self h2 hrem
    · exact GoneId_removeTask h2 hrem
  exact GoneId_run h3 hpost hrun_post

/-- Witness for C5 (amended): key 7 is added, then key 8, then 7 is removed;
the three ticks that follow dispatch only the task with key 8. -/
theorem cancelled_task_never_fires_witness :
    run (freshWheel 1000000000 4)
        [Event.add taskA, Event.add taskC, Event.remove (some 7),
          Event.tick, Event.tick, Event.tick] =
        some ({ tickInterval := 1000000000
                slots := [[], [], [], []]
                timer := timerDelete (timerDelete (timerSet (timerSet (fun _ => none)
                  (some 7) 1) (some 8) 2) (some 7)) (some 8)
                currentPosition := 3
                slotNum := 4 }, [[], [], [taskC]]) ∧
      ∀ l ∈ [[], [], [taskC]], ∀ x ∈ l, x.id ≠ taskA.id :=
  ⟨rfl, cancelled_task_never_fires (freshWheel 1000000000 4) _ _ _ _ taskA
    [Event.add taskC] [Event.tick, Event.tick, Event.tick] [] [[], [], [taskC]]
    [{ taskA with isActive := false }]
    (by decide) (by decide) rfl
    (by
      intro t2 h2
      have h3 : t2 = taskC := by simpa using h2
      rw [h3]
      decide)
    rfl rfl
    (by
      intro t2 h2
      simp at h2)
    rfl⟩

/-! ## Arithmetic of the ring of slots -/

theorem wheel_pos_zero {c N : Int} (h0 : 0 ≤ c) (h1 : c < N) : (c + ((0 : Nat) : Int)) % N = c := by
  simp only [Nat.cast_zero, add_zero]
  exact Int.emod_eq_of_lt h0 h1

theorem wheel_advance {c N : Int} (r : Nat) (hN : 0 < N) (h0 : 0 ≤ c) (h1 : c < N) :
    ((if c = N - 1 then 0 else c + 1) + (r : Int)) % N = (c + ((r + 1 : Nat) : Int)) % N := by
  by_cases hc : c = N - 1
  · rw [if_pos hc, hc]
    have : N - 1 + ((r + 1 : Nat) : Int) = (r : Int) + N := by push_cast; ring
    rw [this, Int.add_emod_self, zero_add]
  · rw [if_neg hc]
    congr 1
    push_cast; ring

theorem wheel_hit {c N : Int} (r : Nat) (hN : 0 < N) (h0 : 0 ≤ c) (h1 : c < N)
    (h : (c + ((r + 1 : Nat) : Int)) % N = c) :
    0 < ((r + 1 : Nat) : Int) / N ∧ ((r + 1 : Nat) : Int) / N - 1 = (r : Int) / N := by
  have hd := Int.emod_add_ediv ((r + 1 : Nat) : Int) N
  have hm0 := Int.emod_nonneg ((r + 1 : Nat) : Int) (ne_of_gt hN)
  have hm1 := Int.emod_lt_of_pos ((r + 1 : Nat) : Int) hN
  have hd2 := Int.emod_add_ediv (c + ((r + 1 : Nat) : Int)) N
  rw [h] at hd2
  set q := ((r + 1 : Nat) : Int) / N with hq
  set m := ((r + 1 : Nat) : Int) % N with hm
  set q2 := (c + ((r + 1 : Nat) : Int)) / N with hq2
  -- c + N*q2 = c + r + 1  => N * q2 = N * q + m => m = N * (q2 - q)
  have hm_zero : m = 0 := by
    have e1 : m = N * (q2 - q) := by linarith [mul_sub N q2 q]
    rcases lt_trichotomy (q2 - q) 0 with hlt | heq | hgt
    · have : N * (q2 - q) < 0 := mul_neg_of_pos_of_neg hN hlt
      omega
    · rw [heq, mul_zero] at e1; exact e1
    · have : N * 1 ≤ N * (q2 - q) := Int.mul_le_mul_of_nonneg_left (by omega) (le_of_lt hN)
      omega
  have hrq : N * q = (r : Int) + 1 := by
    have : ((r + 1 : Nat) : Int) = (r : Int) + 1 := by push_cast; ring
    omega
  have hqpos : 0 < q := by
    by_contra hneg
    have : N * q ≤ 0 := Int.mul_nonpos_of_nonneg_of_nonpos (le_of_lt hN) (by omega)
    omega
  refine ⟨hqpos, ?_⟩
  symm
  have := (Int.ediv_emod_unique (a := (r : Int)) (r := N - 1) (q := q - 1) hN).mpr
    ⟨by rw [mul_sub]; omega, by omega, by omega⟩
  exact this.1

theorem wheel_miss {c N : Int} (r : Nat) (hN : 0 < N) (h0 : 0 ≤ c) (h1 : c < N)
    (h : (c + ((r + 1 : Nat) : Int)) % N ≠ c) :
    ((r + 1 : Nat) : Int) / N = (r : Int) / N := by
  have hd := Int.emod_add_ediv ((r + 1 : Nat) : Int) N
  have hm0 := Int.emod_nonneg ((r + 1 : Nat) : Int) (ne_of_gt hN)
  have hm1 := Int.emod_lt_of_pos ((r + 1 : Nat) : Int) hN
  set q := ((r + 1 : Nat) : Int) / N with hq
  set m := ((r + 1 : Nat) : Int) % N with hm
  have hm_ne : m ≠ 0 := by
    intro hz
    apply h
    have : c + ((r + 1 : Nat) : Int) = c + N * q := by omega
    rw [this, Int.add_mul_emod_self_left]
    exact Int.emod_eq_of_lt h0 h1
  symm
  have hcast : ((r + 1 : Nat) : Int) = (r : Int) + 1 := by push_cast; ring
  have := (Int.ediv_emod_unique (a := (r : Int)) (r := m - 1) (q := q) hN).mpr
    ⟨by omega, by omega, by omega⟩
  exact this.1

/-! ## Well-formedness is kept, and well-formed wheels do not fault -/

theorem Seconds_nonneg {d : Int} (h : 0 ≤ d) : 0 ≤ Seconds d := by
  unfold Seconds
  rw [Int.tdiv_eq_ediv h (by decide)]
  exact Int.ediv_nonneg h (by decide)

theorem WF_tickHandler {w : TimeWheel K D} (hwf : WF w) :
    ∃ r, tickHandler w = some r ∧ WF r.1 := by
  obtain ⟨hti, hN, hlen, hc0, hc1, htm⟩ := hwf
  obtain ⟨l, hl⟩ := slotAt_of_lt w.slots w.currentPosition hc0 (by omega)
  have hr : tickHandler w = some ({ w with
      slots := w.slots.set w.currentPosition.toNat (scanAndRunTask w.timer l).1
      timer := (scanAndRunTask w.timer l).2.2
      currentPosition :=
        if w.currentPosition = w.slotNum - 1 then 0 else w.currentPosition + 1 },
      (scanAndRunTask w.timer l).2.1) := by
    unfold tickHandler
    rw [hl]
  refine ⟨_, hr, hti, hN, ?_, ?_, ?_, ?_⟩
  · simp only [List.length_set]; exact hlen
  · show 0 ≤ (if w.currentPosition = w.slotNum - 1 then 0 else w.currentPosition + 1)
    split <;> omega
  · show (if w.currentPosition = w.slotNum - 1 then 0 else w.currentPosition + 1) < w.slotNum
    split <;> omega
  · intro key pos hkp
    exact htm key pos (scanAndRunTask_timer_some w.timer l key pos hkp)

theorem WF_of_tickHandler {w : TimeWheel K D} {r : TimeWheel K D × List (TimeTask K D)}
    (hwf : WF w) (h : tickHandler w = some r) : WF r.1 := by
  obtain ⟨r2, hr2, hw2⟩ := WF_tickHandler hwf
  rw [h] at hr2
  rw [Option.some.inj hr2]; exact hw2

theorem WF_of_addTask {w w1 : TimeWheel K D} {task : TimeTask K D}
    (hwf : WF w) (h : addTask w task = some w1) : WF w1 := by
  obtain ⟨hti, hN, hlen, hc0, hc1, htm⟩ := hwf
  obtain ⟨pc, l, -, hl, hs, ht, hc, hn, hi⟩ := addTask_some h
  have hlt := slotAt_lt hl
  refine ⟨by rw [hi]; exact hti, by rw [hn]; exact hN, ?_, by rw [hc]; exact hc0,
    by rw [hc, hn]; exact hc1, ?_⟩
  · rw [hs, hn]; simp only [List.length_set]; exact hlen
  · intro key pos hkp
    rw [hn]
    rw [ht] at hkp
    by_cases hk : task.key.isSome = true
    · rw [if_pos hk] at hkp
      unfold timerSet at hkp
      by_cases hkk : key = task.key
      · rw [if_pos hkk] at hkp
        have := Option.some.inj hkp
        omega
      · rw [if_neg hkk] at hkp
        exact htm key pos hkp
    · rw [if_neg hk] at hkp
      exact htm key pos hkp

theorem addTask_total {w : TimeWheel K D} (task : TimeTask K D) (hwf : WF w)
    (htv : 0 < Seconds w.tickInterval) (hd : 0 ≤ task.delay) :
    ∃ w1, addTask w task = some w1 := by
  obtain ⟨hti, hN, hlen, hc0, hc1, htm⟩ := hwf
  have hk : 0 ≤ (Seconds task.delay).tdiv (Seconds w.tickInterval) := by
    rw [Int.tdiv_eq_ediv (Seconds_nonneg hd) (le_of_lt htv)]
    exact Int.ediv_nonneg (Seconds_nonneg hd) (le_of_lt htv)
  have hpc : getPositionAndCircle w task.delay = some
      ((w.currentPosition + (Seconds task.delay).tdiv (Seconds w.tickInterval)).tmod w.slotNum,
        ((Seconds task.delay).tdiv (Seconds w.tickInterval)).tdiv w.slotNum) := by
    unfold getPositionAndCircle
    simp only [ne_of_gt htv, ne_of_gt hN, or_self, if_false]
  have hsum : 0 ≤ w.currentPosition + (Seconds task.delay).tdiv (Seconds w.tickInterval) := by
    omega
  obtain ⟨l, hl⟩ := slotAt_of_lt w.slots
    ((w.currentPosition + (Seconds task.delay).tdiv (Seconds w.tickInterval)).tmod
      w.slotNum)
    (by rw [Int.tmod_eq_emod hsum (le_of_lt hN)]; exact Int.emod_nonneg _ (ne_of_gt hN))
    (by rw [Int.tmod_eq_emod hsum (le_of_lt hN), hlen]; exact Int.emod_lt_of_pos _ hN)
  unfold addTask
  rw [hpc]
  dsimp only
  rw [hl]
  exact ⟨_, rfl⟩

theorem WF_removeTask {w : TimeWheel K D} (key : Option K) (hwf : WF w) :
    ∃ r, removeTask w key = some r ∧ WF r.1 := by
  have hwf0 := hwf
  obtain ⟨hti, hN, hlen, hc0, hc1, htm⟩ := hwf
  cases htk : w.timer key with
  | none =>
    refine ⟨(w, []), ?_, hwf0⟩
    unfold removeTask
    rw [htk]
  | some pos =>
    have hp := htm key pos htk
    obtain ⟨l, hl⟩ := slotAt_of_lt w.slots pos hp.1 (by omega)
    have hr : removeTask w key = some ({ w with
        slots := w.slots.set pos.toNat (removeScan key l).2
        timer := if (removeScan key l).1.isEmpty then w.timer else timerDelete w.timer key },
        (removeScan key l).1) := by
      unfold removeTask
      rw [htk]
      dsimp only
      rw [hl]
    refine ⟨_, hr, hti, hN, ?_, hc0, hc1, ?_⟩
    · simp only [List.length_set]; exact hlen
    · intro k2 p2 hkp
      dsimp only at hkp
      split at hkp
      · exact htm k2 p2 hkp
      · unfold timerDelete at hkp
        split at hkp
        · exact absurd hkp (by simp)
        · exact htm k2 p2 hkp

theorem WF_of_removeTask {w : TimeWheel K D} {key : Option K}
    {r : TimeWheel K D × List (TimeTask K D)}
    (hwf : WF w) (h : removeTask w key = some r) : WF r.1 := by
  obtain ⟨r2, hr2, hw2⟩ := WF_removeTask key hwf
  rw [h] at hr2
  rw [Option.some.inj hr2]; exact hw2

theorem run_total {w : TimeWheel K D} (evs : List (Event K D)) (hwf : WF w)
    (htv : 0 < Seconds w.tickInterval)
    (hevs : ∀ t2, Event.add t2 ∈ evs → 0 ≤ t2.delay) :
    ∃ s tr, run w evs = some (s, tr) := by
  induction evs generalizing w with
  | nil => exact ⟨w, [], rfl⟩
  | cons e evs ih =>
    have hrest : ∀ t2, Event.add t2 ∈ evs → 0 ≤ t2.delay :=
      fun t2 ht2 => hevs t2 (List.mem_cons_of_mem e ht2)
    cases e with
    | tick =>
      obtain ⟨r, hr, hw⟩ := WF_tickHandler hwf
      have hti : r.1.tickInterval = w.tickInterval := by
        obtain ⟨l, -, -, -, -, -, hi, -⟩ := tickHandler_some hr
        exact hi
      obtain ⟨s, tr, hrun⟩ := ih hw (by rw [hti]; exact htv) hrest
      refine ⟨s, r.2 :: tr, ?_⟩
      simp only [run, hr, hrun]
    | add task =>
      obtain ⟨w1, hr⟩ := addTask_total task hwf htv (hevs task (List.mem_cons_self _ _))
      have hti : w1.tickInterval = w.tickInterval := by
        obtain ⟨pc, l, -, -, -, -, -, -, hi⟩ := addTask_some hr
        exact hi
      obtain ⟨s, tr, hrun⟩ := ih (WF_of_addTask hwf hr) (by rw [hti]; exact htv) hrest
      refine ⟨s, tr, ?_⟩
      simp only [run, hr, hrun]
    | remove key =>
      obtain ⟨r, hr, hw⟩ := WF_removeTask key hwf
      have hti : r.1.tickInterval = w.tickInterval := by
        rcases removeTask_some hr with ⟨-, he⟩ | ⟨pos, l, -, -, -, -, -, -, hi, -⟩
        · rw [he]
        · exact hi
      obtain ⟨s, tr, hrun⟩ := ih hw (by rw [hti]; exact htv) hrest
      refine ⟨s, tr, ?_⟩
      simp only [run, hr, hrun]

theorem run_length {w s : TimeWheel K D} {evs : List (Event K D)}
    {tr : List (List (TimeTask K D))} (h : run w evs = some (s, tr)) :
    tr.length = tickCount evs := by
  induction evs generalizing w tr with
  | nil =>
    simp only [run] at h
    rw [← (Prod.mk.inj (Option.some.inj h)).2]
    rfl
  | cons e evs ih =>
    cases e with
    | tick =>
      simp only [run] at h
      cases hr : tickHandler w with
      | none => rw [hr] at h; exact absurd h (by simp)
      | some r =>
        rw [hr] at h
        dsimp only at h
        cases hr2 : run r.1 evs with
        | none => rw [hr2] at h; exact absurd h (by simp)
        | some r2 =>
          rw [hr2] at h
          dsimp only at h
          have he := Prod.mk.inj (Option.some.inj h)
          have := ih (show run r.1 evs = some (s, r2.2) by rw [hr2, ← he.1])
          rw [← he.2, List.length_cons, this]
          rfl
    | add task =>
      simp only [run] at h
      cases hr : addTask w task with
      | none => rw [hr] at h; exact absurd h (by simp)
      | some w1 =>
        rw [hr] at h
        exact ih h
    | remove key =>
      simp only [run] at h
      cases hr : removeTask w key with
      | none => rw [hr] at h; exact absurd h (by simp)
      | some r =>
        rw [hr] at h
        exact ih h

/-! ## A scheduled task fires on its tick -/

theorem Sched_tick_zero {w : TimeWheel K D} {r : TimeWheel K D × List (TimeTask K D)}
    {t : TimeTask K D} (hwf : WF w) (hact : t.isActive = true) (hs : Sched w t 0)
    (h : tickHandler w = some r) :
    r.2.filter (fun y => decide (y.id = t.id)) = [{ t with circle := 0 }] ∧
      GoneId r.1 t.id := by
  obtain ⟨hti, hN, hlen, hc0, hc1, htm⟩ := hwf
  obtain ⟨l, hl, hsl, -, -, -, -, hf⟩ := tickHandler_some h
  have hl2 := slotAt_eq_some.mp hl
  have hpos := wheel_pos_zero hc0 hc1
  have hlf := hs _ l hl2.2
  rw [hpos, Int.toNat_of_nonneg hc0, if_pos rfl] at hlf
  have hz : ((0 : Nat) : Int) / w.slotNum = 0 := by simp
  rw [hz] at hlf
  constructor
  · rw [hf, filter_fired, hlf]
    simp [hact]
  · intro i b hb x hx hid
    rw [hsl] at hb
    have hnil : b.filter (fun y => decide (y.id = t.id)) = [] := by
      rcases getElem?_set_some hb with ⟨hi, hbe⟩ | ⟨hi, hbo⟩
      · subst hbe
        rw [filter_keep w.timer l (fun y => decide (y.id = t.id)) (fun y => rfl), hlf]
        simp
      · rw [hs i b hbo, hpos, if_neg]
        intro e
        apply hi
        omega
    exact not_mem_of_filter_nil hnil x hx (by simp [hid])

theorem Sched_tick_succ {w : TimeWheel K D} {r : TimeWheel K D × List (TimeTask K D)}
    {t : TimeTask K D} {n : Nat} (hwf : WF w) (hs : Sched w t (n + 1))
    (h : tickHandler w = some r) :
    r.2.filter (fun y => decide (y.id = t.id)) = [] ∧ Sched r.1 t n := by
  obtain ⟨hti, hN, hlen, hc0, hc1, htm⟩ := hwf
  obtain ⟨l, hl, hsl, -, hcur, hnum, -, hf⟩ := tickHandler_some h
  have hl2 := slotAt_eq_some.mp hl
  have hlf := hs _ l hl2.2
  rw [Int.toNat_of_nonneg hc0] at hlf
  have hadv := wheel_advance n hN hc0 hc1
  by_cases hhit : (w.currentPosition + ((n + 1 : Nat) : Int)) % w.slotNum = w.currentPosition
  · obtain ⟨hq, hq1⟩ := wheel_hit n hN hc0 hc1 hhit
    rw [if_pos hhit.symm] at hlf
    have hq2 := hq
    have hq3 := hq1
    push_cast at hq2 hq3
    constructor
    · rw [hf, filter_fired, hlf]
      simp [hq2]
    · intro i b hb
      rw [hcur, hnum, hadv, hhit]
      rw [hsl] at hb
      rcases getElem?_set_some hb with ⟨hi, hbe⟩ | ⟨hi, hbo⟩
      · subst hbe
        rw [filter_keep w.timer l (fun y => decide (y.id = t.id)) (fun y => rfl), hlf, if_pos (by omega)]
        simp [hq2, hq3]
      · rw [hs i b hbo, hhit, if_neg (by omega), if_neg (by omega)]
  · have hq := wheel_miss n hN hc0 hc1 hhit
    rw [if_neg (fun e => hhit e.symm)] at hlf
    constructor
    · rw [hf, filter_fired, hlf]
      rfl
    · intro i b hb
      rw [hcur, hnum, hadv, ← hq]
      rw [hsl] at hb
      rcases getElem?_set_some hb with ⟨hi, hbe⟩ | ⟨hi, hbo⟩
      · subst hbe
        rw [filter_keep w.timer l (fun y => decide (y.id = t.id)) (fun y => rfl), hlf, if_neg]
        · rfl
        · intro e
          apply hhit
          rw [← e]
          omega
      · exact hs i b hbo

theorem Sched_addTask {w w1 : TimeWheel K D} {task t : TimeTask K D} {n : Nat}
    (hs : Sched w t n) (hid : task.id ≠ t.id) (h : addTask w task = some w1) :
    Sched w1 t n := by
  obtain ⟨pc, l, -, hl, hsl, -, hc, hn, -⟩ := addTask_some h
  have hl2 := slotAt_eq_some.mp hl
  intro i b hb
  rw [hc, hn]
  rw [hsl] at hb
  rcases getElem?_set_some hb with ⟨hi, hbe⟩ | ⟨hi, hbo⟩
  · subst hbe
    rw [List.filter_append, hi, hs _ l hl2.2]
    simp [hid]
  · exact hs i b hbo

theorem Sched_removeTask {w : TimeWheel K D} {key : Option K}
    {r : TimeWheel K D × List (TimeTask K D)} {t : TimeTask K D} {n : Nat}
    (hs : Sched w t n) (hkey : key ≠ t.key) (h : removeTask w key = some r) :
    Sched r.1 t n := by
  rcases removeTask_some h with ⟨-, hr⟩ | ⟨pos, l, -, hl, hsl, -, hc, hn, -, -⟩
  · rw [hr]; exact hs
  · have hl2 := slotAt_eq_some.mp hl
    intro i b hb
    rw [hc, hn]
    rw [hsl] at hb
    rcases getElem?_set_some hb with ⟨hi, hbe⟩ | ⟨hi, hbo⟩
    · subst hbe
      rw [removeScan_filter, hi]
      · exact hs _ l hl2.2
      · intro y hy hpy hyk
        have hmem : y ∈ l.filter (fun y => decide (y.id = t.id)) :=
          List.mem_filter.mpr ⟨hy, hpy⟩
        rw [hs _ l hl2.2] at hmem
        split at hmem
        · have hyx := List.mem_singleton.mp hmem
          rw [hyx] at hyk
          exact hkey hyk.symm
        · exact absurd hmem (List.not_mem_nil y)
    · exact hs i b hbo

theorem Sched_after_add {w w1 : TimeWheel K D} {t : TimeTask K D} {k : Int}
    (hwf : WF w) (hfresh : ∀ b ∈ w.slots, ∀ x ∈ b, x.id ≠ t.id) (hk : 0 ≤ k)
    (hpc : getPositionAndCircle w t.delay =
      some ((w.currentPosition + k) % w.slotNum, k / w.slotNum))
    (h : addTask w t = some w1) : Sched w1 t k.toNat := by
  obtain ⟨hti, hN, hlen, hc0, hc1, htm⟩ := hwf
  obtain ⟨pc, l, hpc2, hl, hsl, -, hc, hn, -⟩ := addTask_some h
  rw [hpc] at hpc2
  have hpce := Option.some.inj hpc2
  subst hpce
  have hl2 := slotAt_eq_some.mp hl
  have hnil : ∀ (i : Nat) (b : List (TimeTask K D)), w.slots[i]? = some b →
      b.filter (fun y => decide (y.id = t.id)) = [] := by
    intro i b hb
    rw [List.filter_eq_nil_iff]
    intro y hy
    simp [hfresh b (List.getElem?_mem hb) y hy]
  intro i b hb
  rw [hc, hn, Int.toNat_of_nonneg hk]
  rw [hsl] at hb
  rcases getElem?_set_some hb with ⟨hi, hbe⟩ | ⟨hi, hbo⟩
  · subst hbe
    rw [List.filter_append, hnil _ l hl2.2, if_pos]
    · simp
    · rw [hi]
      exact Int.toNat_of_nonneg hl2.1
  · rw [hnil i b hbo, if_neg]
    intro e
    apply hi
    show i = ((w.currentPosition + k) % w.slotNum).toNat
    rw [← e]
    exact (Int.toNat_ofNat i).symm

theorem Sched_run {w s : TimeWheel K D} {t : TimeTask K D} {evs : List (Event K D)}
    {tr : List (List (TimeTask K D))} {n : Nat} (hwf : WF w) (hact : t.isActive = true)
    (hs : Sched w t n) (hadds : ∀ t2, Event.add t2 ∈ evs → t2.id ≠ t.id)
    (hrems : Event.remove t.key ∉ evs) (h : run w evs = some (s, tr)) :
    ∀ (j : Nat) (l : List (TimeTask K D)), tr[j]? = some l →
      l.filter (fun y => decide (y.id = t.id)) =
        if j = n then [{ t with circle := 0 }] else [] := by
  induction evs generalizing w n tr with
  | nil =>
    simp only [run] at h
    rw [← (Prod.mk.inj (Option.some.inj h)).2]
    intro j l hl
    simp at hl
  | cons e evs ih =>
    have hrest : ∀ t2, Event.add t2 ∈ evs → t2.id ≠ t.id :=
      fun t2 ht2 => hadds t2 (List.mem_cons_of_mem e ht2)
    have hrest2 : Event.remove t.key ∉ evs :=
      fun hm => hrems (List.mem_cons_of_mem e hm)
    cases e with
    | tick =>
      simp only [run] at h
      cases hr : tickHandler w with
      | none => rw [hr] at h; exact absurd h (by simp)
      | some r =>
        rw [hr] at h
        dsimp only at h
        cases hr2 : run r.1 evs with
        | none => rw [hr2] at h; exact absurd h (by simp)
        | some r2 =>
          rw [hr2] at h
          dsimp only at h
          have he := Prod.mk.inj (Option.some.inj h)
          have hrun2 : run r.1 evs = some (s, r2.2) := by rw [hr2, ← he.1]
          rw [← he.2]
          intro j l hl
          cases n with
          | zero =>
            have hstep := Sched_tick_zero hwf hact hs hr
            cases j with
            | zero =>
              simp only [List.getElem?_cons_zero] at hl
              rw [← Option.some.inj hl, if_pos rfl]
              exact hstep.1
            | succ j =>
              simp only [List.getElem?_cons_succ] at hl
              have hgone := GoneId_run hstep.2 hrest hrun2 l (List.getElem?_mem hl)
              rw [if_neg (by omega), List.filter_eq_nil_iff]
              intro y hy
              simp [hgone y hy]
          | succ m =>
            have hstep := Sched_tick_succ hwf hs hr
            cases j with
            | zero =>
              simp only [List.getElem?_cons_zero] at hl
              rw [← Option.some.inj hl, if_neg (by omega)]
              exact hstep.1
            | succ j =>
              simp only [List.getElem?_cons_succ] at hl
              rw [ih (WF_of_tickHandler hwf hr) hstep.2 hrest hrest2 hrun2 j l hl]
              simp
    | add task =>
      simp only [run] at h
      cases hr : addTask w task with
      | none => rw [hr] at h; exact absurd h (by simp)
      | some w1 =>
        rw [hr] at h
        dsimp only at h
        exact ih (WF_of_addTask hwf hr)
          (Sched_addTask hs (hadds task (List.mem_cons_self _ _)) hr) hrest hrest2 h
    | remove key =>
      simp only [run] at h
      cases hr : removeTask w key with
      | none => rw [hr] at h; exact absurd h (by simp)
      | some r =>
        rw [hr] at h
        dsimp only at h
        have hkey : key ≠ t.key := by
          intro e
          apply hrems
          rw [e]
          exact List.mem_cons_self _ _
        exact ih (WF_of_removeTask hwf hr) (Sched_removeTask hs hkey hr) hrest hrest2 h

/-- C3: let a task (active, as `AddTimer` builds it) be added to a well-formed
wheel at position `p`, and let `k >= 0` be the tick count the wheel computes
for it, that is the task is filed at slot `(p + k) mod slotNum` with circle
`k div slotNum`.  For every subsequent sequence of tick / add / remove events
without a remove request for the key of the task (the other add requests come
from `AddTimer`: positive delay, a task object of their own), the events are
all processed, and the ticks among them dispatch the task exactly once: on
the `(k+1)`-th tick (index `k` counting from 0), with its own key and data,
and on no other tick before or after. -/
theorem task_fires_on_tick_k_plus_one (w w1 : TimeWheel K D) (t : TimeTask K D) (k : Int)
    (evs : List (Event K D)) (hwf : WF w) (hact : t.isActive = true)
    (hfresh : ∀ b ∈ w.slots, ∀ x ∈ b, x.id ≠ t.id) (hk : 0 ≤ k)
    (hpc : getPositionAndCircle w t.delay =
      some ((w.currentPosition + k) % w.slotNum, k / w.slotNum))
    (hadd : addTask w t = some w1)
    (hadds : ∀ t2, Event.add t2 ∈ evs → t2.id ≠ t.id ∧ 0 < t2.delay)
    (hrems : Event.remove t.key ∉ evs) :
    ∃ s tr, run w1 evs = some (s, tr) ∧ tr.length = tickCount evs ∧
      ∀ (j : Nat) (l : List (TimeTask K D)), tr[j]? = some l →
        l.filter (fun y => decide (y.id = t.id)) =
          if j = k.toNat then [{ t with circle := 0 }] else [] := by
  have hwf1 := WF_of_addTask hwf hadd
  have hti : w1.tickInterval = w.tickInterval := by
    obtain ⟨pc, l, -, -, -, -, -, -, hi⟩ := addTask_some hadd
    exact hi
  have htv : 0 < Seconds w1.tickInterval := by
    rw [hti]
    have h0 : 0 ≤ Seconds w.tickInterval := Seconds_nonneg (le_of_lt hwf.1)
    have hne : Seconds w.tickInterval ≠ 0 := by
      intro hz
      unfold getPositionAndCircle at hpc
      simp [hz] at hpc
    omega
  obtain ⟨s, tr, hrun⟩ := run_total evs hwf1 htv
    (fun t2 ht2 => le_of_lt (hadds t2 ht2).2)
  exact ⟨s, tr, hrun, run_length hrun,
    Sched_run hwf1 hact (Sched_after_add hwf hfresh hk hpc hadd)
      (fun t2 ht2 => (hadds t2 ht2).1) hrems hrun⟩

theorem WF_new {J : Type} {maxSlots interval slotNum : Int} {job : Option J}
    {w : TimeWheel K D} (h : NewTimeWheel maxSlots interval slotNum job = some (some w)) :
    WF w := by
  obtain ⟨hi0, hn0, -, -, hw⟩ := NewTimeWheel_some h
  subst hw
  · refine ⟨hi0, hn0, ?_, le_refl 0, hn0, ?_⟩
    · simp only [List.length_replicate]
      exact Int.toNat_of_nonneg (le_of_lt hn0)
    · intro key pos hkp
      exact absurd hkp (by simp)

/-- Witness for C3: `taskD` (delay 5 s, so `k = 5`, slot 1, circle 1) on a new
4-slot wheel; of the seven ticks that follow, exactly the sixth dispatches
it. -/
theorem task_fires_on_tick_k_plus_one_witness :
    WF (freshWheel 1000000000 4) ∧
      getPositionAndCircle (freshWheel 1000000000 4) taskD.delay = some (1, 1) ∧
      addTask (freshWheel 1000000000 4) taskD = some wheelD ∧
      ∃ s tr, run wheelD eventsD = some (s, tr) ∧ tr.length = tickCount eventsD ∧
        ∀ (j : Nat) (l : List (TimeTask Nat Nat)), tr[j]? = some l →
          l.filter (fun y => decide (y.id = taskD.id)) =
            if j = (5 : Int).toNat then [{ taskD with circle := 0 }] else [] :=
  ⟨@WF_new Nat Nat _ Unit maxSliceLen 1000000000 4 (some ()) (freshWheel 1000000000 4) rfl, by decide, rfl,
    task_fires_on_tick_k_plus_one (freshWheel 1000000000 4) wheelD taskD 5 eventsD
      (@WF_new Nat Nat _ Unit maxSliceLen 1000000000 4 (some ()) (freshWheel 1000000000 4) rfl) rfl (by decide) (by decide) (by decide) rfl
      (by
        intro t2 h2
        have h3 : t2 = taskC := by simpa [eventsD] using h2
        rw [h3]
        decide)
      (by simp [eventsD, taskD, mkTask])⟩

/-- Witness for C8: the bucket at position 2 holds two due tasks; the tick
dispatches both, in order, and empties the bucket. -/
theorem tickHandler_fires_whole_bucket_witness :
    slotAt wheelE.slots wheelE.currentPosition = some [taskA, taskC] ∧
      ∃ w1, tickHandler wheelE = some (w1, [taskA, taskC]) ∧
        slotAt w1.slots wheelE.currentPosition = some [] :=
  ⟨rfl, tickHandler_fires_whole_bucket wheelE [taskA, taskC] rfl (by decide)⟩

/-- Extent of the whole-second truncation: when the tick interval is a whole
number `T > 0` of seconds and the delay is below `2^24` seconds (where
`Seconds` is exact), `getPositionAndCircle` does not fault and agrees with the
exact quotient `floor(d / tickInterval)` of the two durations. -/
theorem getPositionAndCircle_whole_second_tick (w : TimeWheel K D) (d T : Int)
    (hT : 0 < T) (hti : w.tickInterval = T * 1000000000) (hd : 0 ≤ d)
    (hrange : d < 16777216 * 1000000000)
    (hp : 0 ≤ w.currentPosition) (hN : 0 < w.slotNum) :
    getPositionAndCircle w d =
      some ((w.currentPosition + d / w.tickInterval) % w.slotNum,
        d / w.tickInterval / w.slotNum) := by
  have htv : Seconds w.tickInterval = T := by
    unfold Seconds
    rw [hti, Int.tdiv_eq_ediv (by omega) (by decide)]
    exact Int.mul_ediv_cancel T (by decide)
  have hds : Seconds d = d / 1000000000 := by
    unfold Seconds
    exact Int.tdiv_eq_ediv hd (by decide)
  have hd0 : 0 ≤ d / 1000000000 := Int.ediv_nonneg hd (by decide)
  have hnest : d / 1000000000 / T = d / (T * 1000000000) := by
    have h1 := Int.emod_add_ediv d 1000000000
    have h2 := Int.emod_nonneg d (show (1000000000 : Int) ≠ 0 by decide)
    have h3 := Int.emod_lt_of_pos d (show (0 : Int) < 1000000000 by decide)
    have h4 := Int.emod_add_ediv (d / 1000000000) T
    have h5 := Int.emod_nonneg (d / 1000000000) (ne_of_gt hT)
    have h6 := Int.emod_lt_of_pos (d / 1000000000) hT
    have h7 : T * 1000000000 * (d / 1000000000 / T) =
        1000000000 * (T * (d / 1000000000 / T)) := by ring
    have hu := (Int.ediv_emod_unique (a := d)
      (r := 1000000000 * (d / 1000000000 % T) + d % 1000000000)
      (q := d / 1000000000 / T) (show 0 < T * 1000000000 by omega)).mpr
      ⟨by rw [h7]; omega, by omega, by omega⟩
    exact hu.1.symm
  have hk : (Seconds d).tdiv (Seconds w.tickInterval) = d / w.tickInterval := by
    rw [htv, hds, Int.tdiv_eq_ediv hd0 (le_of_lt hT), hnest, hti]
  have hk0 : 0 ≤ d / w.tickInterval := by
    rw [← hk, htv, hds, Int.tdiv_eq_ediv hd0 (le_of_lt hT)]
    exact Int.ediv_nonneg hd0 (le_of_lt hT)
  unfold getPositionAndCircle
  have hne : ¬ (Seconds w.tickInterval = 0 ∨ w.slotNum = 0) := by
    rw [htv]
    omega
  simp only [hne, if_false, hk]
  rw [Int.tmod_eq_emod (by omega) (le_of_lt hN), Int.tdiv_eq_ediv hk0 (le_of_lt hN)]

/-! ## The public entry points -/

/-- C11: `AddTimer` with `delay <= 0` submits no add request and `RemoveTimer`
with a nil key submits no remove request, so the wheel the loop holds is
unchanged; `AddTimer` with `delay > 0` submits exactly one task, carrying the
given delay, key and data with `isActive = true`. -/
theorem AddTimer_RemoveTimer_requests (w : TimeWheel K D) (id : Nat) (delay : Int)
    (key : Option K) (data : D) :
    (delay ≤ 0 → AddTimer id delay key data = [] ∧
      run w (AddTimer id delay key data) = some (w, [])) ∧
    ((RemoveTimer none : List (Event K D)) = [] ∧
      run w (RemoveTimer none) = some (w, [])) ∧
    (0 < delay → ∃ t : TimeTask K D, AddTimer id delay key data = [Event.add t] ∧
      t.delay = delay ∧ t.key = key ∧ t.data = data ∧ t.isActive = true) := by
  refine ⟨?_, ?_, ?_⟩
  · intro h
    have he : AddTimer id delay key data = [] := by
      unfold AddTimer
      rw [if_pos h]
    rw [he]
    exact ⟨rfl, rfl⟩
  · have he : (RemoveTimer none : List (Event K D)) = [] := by
      unfold RemoveTimer
      rw [if_pos rfl]
    rw [he]
    exact ⟨rfl, rfl⟩
  · intro h
    refine ⟨⟨id, delay, 0, key, data, true⟩, ?_, rfl, rfl, rfl, rfl⟩
    unfold AddTimer
    rw [if_neg (by omega)]

/-- Witness for C11: a rejected and an accepted `AddTimer` call. -/
theorem AddTimer_RemoveTimer_requests_witness :
    (AddTimer 0 (-5) (some 7) 10 : List (Event Nat Nat)) = [] ∧
      run (freshWheel 1000000000 4) (AddTimer 0 (-5) (some 7) 10) =
        some (freshWheel 1000000000 4, []) ∧
      ∃ t : TimeTask Nat Nat, AddTimer 0 1000000000 (some 7) 10 = [Event.add t] ∧
        t.delay = 1000000000 ∧ t.key = some 7 ∧ t.data = 10 ∧ t.isActive = true :=
  ⟨((AddTimer_RemoveTimer_requests (freshWheel 1000000000 4) 0 (-5) (some 7) 10).1
      (by decide)).1,
    ((AddTimer_RemoveTimer_requests (freshWheel 1000000000 4) 0 (-5) (some 7) 10).1
      (by decide)).2,
    (AddTimer_RemoveTimer_requests (freshWheel 1000000000 4) 0 1000000000 (some 7) 10).2.2
      (by decide)⟩

/-- C12: for `interval > 0`, `slotNum > 0` and a non-nil job, every wheel that
`NewTimeWheel` returns has exactly `slotNum` buckets, all of them empty, an
empty registry, `currentPosition = 0`, and `tickInterval` and `slotNum` equal
to the arguments; such a wheel is returned whenever `slotNum` is not above
the longest slice of buckets the runtime can allocate, and above it the call
panics. -/
theorem NewTimeWheel_fresh {J : Type} (maxSlots interval slotNum : Int) (job : J)
    (hi : 0 < interval) (hn : 0 < slotNum) :
    (∀ w : TimeWheel K D, NewTimeWheel maxSlots interval slotNum (some job) = some (some w) →
      (w.slots.length : Int) = slotNum ∧ (∀ b ∈ w.slots, b = []) ∧
      (∀ k, w.timer k = none) ∧ w.currentPosition = 0 ∧
      w.tickInterval = interval ∧ w.slotNum = slotNum) ∧
    (slotNum ≤ maxSlots → ∃ w : TimeWheel K D,
      NewTimeWheel maxSlots interval slotNum (some job) = some (some w)) ∧
    (maxSlots < slotNum →
      (NewTimeWheel maxSlots interval slotNum (some job) :
        Option (Option (TimeWheel K D))) = none) := by
  have hguard : ¬ (interval ≤ 0 ∨ slotNum ≤ 0 ∨ (some job).isNone = true) := by
    simp only [Option.isNone_some, Bool.false_eq_true, or_false, not_or, not_le]
    exact ⟨hi, hn⟩
  refine ⟨?_, ?_, ?_⟩
  · intro w hw
    obtain ⟨-, -, -, -, he⟩ := NewTimeWheel_some hw
    subst he
    refine ⟨?_, ?_, fun _ => rfl, rfl, rfl, rfl⟩
    · simp only [List.length_replicate]
      exact Int.toNat_of_nonneg (le_of_lt hn)
    · intro b hb
      exact (List.mem_replicate.mp hb).2
  · intro hm
    refine ⟨{ tickInterval := interval
              slots := List.replicate slotNum.toNat []
              timer := fun _ => none
              currentPosition := 0
              slotNum := slotNum }, ?_⟩
    unfold NewTimeWheel
    rw [if_neg hguard, if_neg (by omega)]
  · intro hm
    unfold NewTimeWheel
    rw [if_neg hguard, if_pos hm]

/-- Witness for C12: a 1 s wheel with 4 slots is returned and has 4 empty
buckets. -/
theorem NewTimeWheel_fresh_witness :
    (NewTimeWheel maxSliceLen 1000000000 4 (some ()) : Option (Option (TimeWheel Nat Nat))) =
        some (some (freshWheel 1000000000 4)) ∧
      (((freshWheel 1000000000 4).slots.length : Int) = 4 ∧
        (∀ b ∈ (freshWheel 1000000000 4).slots, b = []) ∧
        (∀ k, (freshWheel 1000000000 4).timer k = none) ∧
        (freshWheel 1000000000 4).currentPosition = 0 ∧
        (freshWheel 1000000000 4).tickInterval = 1000000000 ∧
        (freshWheel 1000000000 4).slotNum = 4) ∧
      ∃ w : TimeWheel Nat Nat,
        NewTimeWheel maxSliceLen 1000000000 4 (some ()) = some (some w) :=
  ⟨rfl,
    (NewTimeWheel_fresh maxSliceLen 1000000000 4 () (by decide) (by decide)).1
      (freshWheel 1000000000 4) rfl,
    (NewTimeWheel_fresh maxSliceLen 1000000000 4 () (by decide) (by decide)).2.1
      (by decide)⟩

/-! ## Invariants of reachable states -/

theorem WF_run {w s : TimeWheel K D} {evs : List (Event K D)}
    {tr : List (List (TimeTask K D))} (hwf : WF w) (h : run w evs = some (s, tr)) :
    WF s := by
  induction evs generalizing w tr with
  | nil =>
    simp only [run] at h
    rw [← (Prod.mk.inj (Option.some.inj h)).1]; exact hwf
  | cons e evs ih =>
    cases e with
    | tick =>
      simp only [run] at h
      cases hr : tickHandler w with
      | none => rw [hr] at h; exact absurd h (by simp)
      | some r =>
        rw [hr] at h
        dsimp only at h
        cases hr2 : run r.1 evs with
        | none => rw [hr2] at h; exact absurd h (by simp)
        | some r2 =>
          rw [hr2] at h
          dsimp only at h
          have he := Prod.mk.inj (Option.some.inj h)
          exact ih (WF_of_tickHandler hwf hr) (by rw [hr2, ← he.1])
    | add task =>
      simp only [run] at h
      cases hr : addTask w task with
      | none => rw [hr] at h; exact absurd h (by simp)
      | some w1 =>
        rw [hr] at h
        exact ih (WF_of_addTask hwf hr) h
    | remove key =>
      simp only [run] at h
      cases hr : removeTask w key with
      | none => rw [hr] at h; exact absurd h (by simp)
      | some r =>
        rw [hr] at h
        exact ih (WF_of_removeTask hwf hr) h

/-- C13: in every state reached from a newly constructed wheel,
`0 <= currentPosition < slotNum`; a tick (which is always processed there)
changes `currentPosition` from `p` to `(p + 1) mod slotNum`, and add and remove
events leave it unchanged. -/
theorem currentPosition_in_range {J : Type} (maxSlots interval slotNum : Int)
    (job : Option J)
    (w s : TimeWheel K D) (evs : List (Event K D)) (tr : List (List (TimeTask K D)))
    (hnew : NewTimeWheel maxSlots interval slotNum job = some (some w))
    (hrun : run w evs = some (s, tr)) :
    (0 ≤ s.currentPosition ∧ s.currentPosition < s.slotNum) ∧
    (∃ r, tickHandler s = some r ∧
      r.1.currentPosition = (s.currentPosition + 1) % s.slotNum) ∧
    (∀ task s1, addTask s task = some s1 → s1.currentPosition = s.currentPosition) ∧
    (∀ key, ∃ r, removeTask s key = some r ∧ r.1.currentPosition = s.currentPosition) := by
  have hwf := WF_run (WF_new hnew) hrun
  obtain ⟨hti, hN, hlen, hc0, hc1, htm⟩ := hwf
  refine ⟨⟨hc0, hc1⟩, ?_, ?_, ?_⟩
  · obtain ⟨r, hr, -⟩ := WF_tickHandler (WF_run (WF_new hnew) hrun)
    refine ⟨r, hr, ?_⟩
    obtain ⟨l, -, -, -, hcur, -, -, -⟩ := tickHandler_some hr
    rw [hcur]
    by_cases hc : s.currentPosition = s.slotNum - 1
    · rw [if_pos hc, hc]
      have : s.slotNum - 1 + 1 = s.slotNum := by omega
      rw [this, Int.emod_self]
    · rw [if_neg hc]
      exact (Int.emod_eq_of_lt (by omega) (by omega)).symm
  · intro task s1 h1
    obtain ⟨pc, l, -, -, -, -, hc, -, -⟩ := addTask_some h1
    exact hc
  · intro key
    obtain ⟨r, hr, -⟩ := WF_removeTask key (WF_run (WF_new hnew) hrun)
    refine ⟨r, hr, ?_⟩
    rcases removeTask_some hr with ⟨-, he⟩ | ⟨pos, l, -, -, -, -, hc, -, -, -⟩
    · rw [he]
    · exact hc

/-- Witness for C13: the state after one add and three ticks on a new 4-slot
wheel. -/
theorem currentPosition_in_range_witness :
    (0 ≤ (3 : Int) ∧ (3 : Int) < 4) ∧
    (∃ r, tickHandler
        ({ tickInterval := 1000000000
           slots := [[], [], [], []]
           timer := timerDelete (timerSet (fun _ => none) (some 7) 1) (some 7)
           currentPosition := 3
           slotNum := 4 } : TimeWheel Nat Nat) = some r ∧
      r.1.currentPosition = ((3 : Int) + 1) % 4) :=
  ⟨(currentPosition_in_range maxSliceLen 1000000000 4 (some ()) (freshWheel 1000000000 4)
      { tickInterval := 1000000000
        slots := [[], [], [], []]
        timer := timerDelete (timerSet (fun _ => none) (some 7) 1) (some 7)
        currentPosition := 3
        slotNum := 4 }
      [Event.add taskA, Event.tick, Event.tick, Event.tick] [[], [taskA], []] rfl rfl).1,
    (currentPosition_in_range maxSliceLen 1000000000 4 (some ()) (freshWheel 1000000000 4)
      { tickInterval := 1000000000
        slots := [[], [], [], []]
        timer := timerDelete (timerSet (fun _ => none) (some 7) 1) (some 7)
        currentPosition := 3
        slotNum := 4 }
      [Event.add taskA, Event.tick, Event.tick, Event.tick] [[], [taskA], []] rfl rfl).2.1⟩

/-! ## Effect of one tick, one add, one remove -/

theorem scanAndRunTask_timer_none (timer : Option K → Option Int) (l : List (TimeTask K D))
    (k : Option K) (h : timer k = none) : (scanAndRunTask timer l).2.2 k = none := by
  cases hr : (scanAndRunTask timer l).2.2 k with
  | none => rfl
  | some v =>
    have := scanAndRunTask_timer_some timer l k v hr
    rw [h] at this
    exact absurd this (by simp)

theorem scanAndRunTask_timer_deleted (timer : Option K → Option Int)
    (l : List (TimeTask K D)) (t : TimeTask K D) (ht : t ∈ l) (hc : ¬ 0 < t.circle)
    (hk : t.key.isSome = true) : (scanAndRunTask timer l).2.2 t.key = none := by
  induction l generalizing timer with
  | nil => exact absurd ht (List.not_mem_nil t)
  | cons x rest ih =>
    by_cases hxc : 0 < x.circle
    · simp only [scanAndRunTask, hxc, if_true]
      rcases List.mem_cons.mp ht with e | e
      · rw [e] at hc; exact absurd hxc hc
      · exact ih timer e
    · simp only [scanAndRunTask, hxc, if_false]
      rcases List.mem_cons.mp ht with e | e
      · apply scanAndRunTask_timer_none
        rw [← e, if_pos hk]
        unfold timerDelete
        rw [if_pos rfl]
      · exact ih _ e

/-- C15: after a tick the bucket at the pre-tick position consists of exactly
the tasks that had `circle > 0`, in their original order, each with its circle
decreased by one; the tasks dispatched are exactly the tasks of the bucket
without `circle > 0` that are active (so none with `circle > 0`, and a removed
task if and only if it is active); and every removed task with a non-nil key
has no registry entry afterwards. -/
theorem tickHandler_bucket_effect (w : TimeWheel K D) (l : List (TimeTask K D))
    (hl : slotAt w.slots w.currentPosition = some l) :
    ∃ w1 fired, tickHandler w = some (w1, fired) ∧
      slotAt w1.slots w.currentPosition =
        some ((l.filter (fun t => decide (0 < t.circle))).map
          (fun t => { t with circle := t.circle - 1 })) ∧
      fired = l.filter (fun t => !decide (0 < t.circle) && t.isActive) ∧
      ∀ t ∈ l, ¬ 0 < t.circle → t.key ≠ none → w1.timer t.key = none := by
  have ht : tickHandler w = some ({ w with
      slots := w.slots.set w.currentPosition.toNat (scanAndRunTask w.timer l).1
      timer := (scanAndRunTask w.timer l).2.2
      currentPosition :=
        if w.currentPosition = w.slotNum - 1 then 0 else w.currentPosition + 1 },
      (scanAndRunTask w.timer l).2.1) := by
    unfold tickHandler
    rw [hl]
  refine ⟨_, _, ht, ?_, scanAndRunTask_fired w.timer l, ?_⟩
  · rw [← scanAndRunTask_keep w.timer l]
    exact slotAt_set_self hl
  · intro t htl hc hk
    exact scanAndRunTask_timer_deleted w.timer l t htl hc (Option.isSome_iff_ne_none.mpr hk)

/-- Witness for C15: a bucket with a due task, a task with circle 2 and a due
inactive task. -/
theorem tickHandler_bucket_effect_witness :
    slotAt wheelF.slots wheelF.currentPosition =
        some [taskA, { taskD with circle := 2 }, { taskC with isActive := false }] ∧
      ∃ w1 fired, tickHandler wheelF = some (w1, fired) ∧
        slotAt w1.slots wheelF.currentPosition = some [{ taskD with circle := 1 }] ∧
        fired = [taskA] ∧
        ∀ t ∈ [taskA, { taskD with circle := 2 }, { taskC with isActive := false }],
          ¬ 0 < t.circle → t.key ≠ none → w1.timer t.key = none :=
  ⟨rfl, tickHandler_bucket_effect wheelF
    [taskA, { taskD with circle := 2 }, { taskC with isActive := false }] rfl⟩

/-- C16: when `getPositionAndCircle` returns `(pos, circle)` for the task and
`pos` is the index of a bucket, `addTask` sets the task's circle, appends the
task to the bucket of slot `pos`, leaves every other bucket and
`currentPosition` unchanged, and changes the registry only at a non-nil key of
the task, whose entry becomes `pos`; with a nil key the registry is
unchanged. -/
theorem addTask_effect (w : TimeWheel K D) (task : TimeTask K D) (pos circle : Int)
    (l : List (TimeTask K D))
    (hpc : getPositionAndCircle w task.delay = some (pos, circle))
    (hl : slotAt w.slots pos = some l) :
    ∃ w1, addTask w task = some w1 ∧
      slotAt w1.slots pos = some (l ++ [{ task with circle := circle }]) ∧
      (∀ i : Nat, i ≠ pos.toNat → w1.slots[i]? = w.slots[i]?) ∧
      w1.currentPosition = w.currentPosition ∧
      (task.key ≠ none → w1.timer task.key = some pos ∧
        ∀ k, k ≠ task.key → w1.timer k = w.timer k) ∧
      (task.key = none → w1.timer = w.timer) := by
  have ha : addTask w task = some { w with
      slots := w.slots.set pos.toNat (l ++ [{ task with circle := circle }])
      timer := if task.key.isSome then timerSet w.timer task.key pos else w.timer } := by
    unfold addTask
    rw [hpc]
    dsimp only
    rw [hl]
  refine ⟨_, ha, slotAt_set_self hl, ?_, rfl, ?_, ?_⟩
  · intro i hi
    exact List.getElem?_set_ne (fun e => hi e.symm)
  · intro hk
    have hs : task.key.isSome = true := Option.isSome_iff_ne_none.mpr hk
    constructor
    · show (if task.key.isSome then timerSet w.timer task.key pos else w.timer) task.key =
        some pos
      rw [if_pos hs]
      unfold timerSet
      rw [if_pos rfl]
    · intro k hkk
      show (if task.key.isSome then timerSet w.timer task.key pos else w.timer) k = w.timer k
      rw [if_pos hs]
      unfold timerSet
      rw [if_neg hkk]
  · intro hk
    show (if task.key.isSome then timerSet w.timer task.key pos else w.timer) = w.timer
    rw [hk]
    rfl

/-- Witness for C16: a second task with key 7 is added while the first is
scheduled; the entry for 7 moves from slot 1 to slot 2. -/
theorem addTask_effect_witness :
    getPositionAndCircle
        ({ tickInterval := 1000000000
           slots := [[], [taskA], [taskC], []]
           timer := timerSet (timerSet (fun _ => none) (some 7) 1) (some 8) 2
           currentPosition := 0
           slotNum := 4 } : TimeWheel Nat Nat) taskB.delay = some (2, 0) ∧
      ∃ w1, addTask
          ({ tickInterval := 1000000000
             slots := [[], [taskA], [taskC], []]
             timer := timerSet (timerSet (fun _ => none) (some 7) 1) (some 8) 2
             currentPosition := 0
             slotNum := 4 } : TimeWheel Nat Nat) taskB = some w1 ∧
        slotAt w1.slots 2 = some ([taskC] ++ [{ taskB with circle := 0 }]) ∧
        (∀ i : Nat, i ≠ (2 : Int).toNat → w1.slots[i]? = [[], [taskA], [taskC], []][i]?) ∧
        w1.currentPosition = 0 ∧
        (taskB.key ≠ none → w1.timer taskB.key = some 2 ∧
          ∀ k, k ≠ taskB.key →
            w1.timer k = timerSet (timerSet (fun _ => none) (some 7) 1) (some 8) 2 k) ∧
        (taskB.key = none →
          w1.timer = timerSet (timerSet (fun _ => none) (some 7) 1) (some 8) 2) :=
  ⟨by decide, addTask_effect _ taskB 2 0 [taskC] (by decide) rfl⟩

theorem removeScan_append_first (key : Option K) (l1 l2 : List (TimeTask K D))
    (t : TimeTask K D) (h1 : ∀ y ∈ l1, y.key ≠ key) (ht : t.key = key) :
    removeScan key (l1 ++ t :: l2) = ([{ t with isActive := false }], l1 ++ l2) := by
  induction l1 with
  | nil => simp only [List.nil_append, removeScan, ht, if_true]
  | cons x rest ih =>
    have hx : x.key ≠ key := h1 x (List.mem_cons_self x rest)
    have hrest : ∀ y ∈ rest, y.key ≠ key := fun y hy => h1 y (List.mem_cons_of_mem x hy)
    have hih := ih hrest
    show removeScan key (x :: (rest ++ t :: l2)) = _
    simp only [removeScan, hx, if_false, hih]
    rfl

/-- C18: when exactly one task `t` in the wheel has key `k` (it sits in the
bucket `pos`, between `l1` and `l2`, and no other task of any bucket has key
`k`) and the registry maps `k` to `pos`, `removeTask(k)` takes out `t`
(marked inactive); afterwards no bucket holds a task with key `k`, the registry
has no entry for `k`, the bucket `pos` is `l1 ++ l2` (the other tasks, same
order, untouched), and every other bucket, every other registry entry and
`currentPosition` are unchanged. -/
theorem removeTask_single (w : TimeWheel K D) (k : Option K) (pos : Int)
    (l1 l2 : List (TimeTask K D)) (t : TimeTask K D)
    (hreg : w.timer k = some pos)
    (hl : slotAt w.slots pos = some (l1 ++ t :: l2))
    (ht : t.key = k)
    (hsame : ∀ y ∈ l1 ++ l2, y.key ≠ k)
    (hother : ∀ (i : Nat) (b : List (TimeTask K D)), i ≠ pos.toNat →
      w.slots[i]? = some b → ∀ y ∈ b, y.key ≠ k) :
    ∃ w1, removeTask w k = some (w1, [{ t with isActive := false }]) ∧
      (∀ (i : Nat) (b : List (TimeTask K D)), w1.slots[i]? = some b → ∀ y ∈ b, y.key ≠ k) ∧
      w1.timer k = none ∧
      slotAt w1.slots pos = some (l1 ++ l2) ∧
      (∀ i : Nat, i ≠ pos.toNat → w1.slots[i]? = w.slots[i]?) ∧
      (∀ k2, k2 ≠ k → w1.timer k2 = w.timer k2) ∧
      w1.currentPosition = w.currentPosition := by
  have hscan := removeScan_append_first k l1 l2 t
    (fun y hy => hsame y (List.mem_append_left l2 hy)) ht
  have hr : removeTask w k = some ({ w with
      slots := w.slots.set pos.toNat (l1 ++ l2)
      timer := timerDelete w.timer k }, [{ t with isActive := false }]) := by
    unfold removeTask
    rw [hreg]
    dsimp only
    rw [hl]
    dsimp only
    rw [hscan]
    rfl
  refine ⟨_, hr, ?_, ?_, slotAt_set_self hl, ?_, ?_, rfl⟩
  · intro i b hb y hy
    rcases getElem?_set_some hb with ⟨hi, hbe⟩ | ⟨hi, hbo⟩
    · rw [hbe] at hy
      exact hsame y hy
    · exact hother i b hi hbo y hy
  · show timerDelete w.timer k k = none
    unfold timerDelete
    rw [if_pos rfl]
  · intro i hi
    exact List.getElem?_set_ne (fun e => hi e.symm)
  · intro k2 hk2
    show timerDelete w.timer k k2 = w.timer k2
    unfold timerDelete
    rw [if_neg hk2]

/-- Witness for C18: key 8 is removed from a bucket that also holds key 7. -/
theorem removeTask_single_witness :
    wheelE.timer (some 8) = some 2 ∧
      slotAt wheelE.slots 2 = some ([taskA] ++ taskC :: []) ∧
      ∃ w1, removeTask wheelE (some 8) = some (w1, [{ taskC with isActive := false }]) ∧
        (∀ (i : Nat) (b : List (TimeTask Nat Nat)), w1.slots[i]? = some b →
          ∀ y ∈ b, y.key ≠ some 8) ∧
        w1.timer (some 8) = none ∧
        slotAt w1.slots 2 = some ([taskA] ++ []) ∧
        (∀ i : Nat, i ≠ (2 : Int).toNat → w1.slots[i]? = wheelE.slots[i]?) ∧
        (∀ k2, k2 ≠ some 8 → w1.timer k2 = wheelE.timer k2) ∧
        w1.currentPosition = wheelE.currentPosition :=
  ⟨rfl, rfl, removeTask_single wheelE (some 8) 2 [taskA] [] taskC rfl rfl rfl
    (by decide)
    (by
      intro i b hi hb y hy
      have hlt : i < 4 := by
        rcases Nat.lt_or_ge i 4 with h | h
        · exact h
        · have : wheelE.slots[i]? = none := List.getElem?_eq_none (by simpa [wheelE] using h)
          rw [this] at hb
          exact absurd hb (by simp)
      have hi2 : i ≠ 2 := hi
      interval_cases i
      · simp [wheelE] at hb; subst hb; simp at hy
      · simp [wheelE] at hb; subst hb; simp at hy
      · exact absurd rfl hi2
      · simp [wheelE] at hb; subst hb; simp at hy)⟩

/-- C17: across one event, a tick changes no bucket other than the one at the
pre-tick position, `removeTask(key)` changes no bucket other than the one the
registry maps `key` to, and every task that is in slot `i` after the event was
in slot `i` before it (the same task, or the same task before its circle was
decremented), unless it is the task the event adds. -/
theorem tasks_never_move (w s : TimeWheel K D) (e : Event K D)
    (tr : List (List (TimeTask K D))) (h : run w [e] = some (s, tr)) :
    (e = Event.tick → ∀ i : Nat, i ≠ w.currentPosition.toNat →
      s.slots[i]? = w.slots[i]?) ∧
    (∀ key, e = Event.remove key → ∀ i : Nat, w.timer key ≠ some (i : Int) →
      s.slots[i]? = w.slots[i]?) ∧
    (∀ (i : Nat) (b2 : List (TimeTask K D)) (t2 : TimeTask K D),
      s.slots[i]? = some b2 → t2 ∈ b2 →
        (∃ b t, w.slots[i]? = some b ∧ t ∈ b ∧
          (t2 = t ∨ t2 = { t with circle := t.circle - 1 })) ∨
        (∃ task c, e = Event.add task ∧ t2 = { task with circle := c })) := by
  cases e with
  | tick =>
    simp only [run] at h
    cases hr : tickHandler w with
    | none => rw [hr] at h; exact absurd h (by simp)
    | some r =>
      rw [hr] at h
      dsimp only at h
      have he := (Prod.mk.inj (Option.some.inj h)).1
      subst he
      obtain ⟨l, hl, hs, -, -, -, -, -⟩ := tickHandler_some hr
      have hl2 := slotAt_eq_some.mp hl
      refine ⟨?_, ?_, ?_⟩
      · intro _ i hi
        rw [hs]
        exact List.getElem?_set_ne (fun e => hi e.symm)
      · intro key hk
        exact absurd hk (by simp)
      · intro i b2 t2 hb ht2
        left
        rw [hs] at hb
        rcases getElem?_set_some hb with ⟨hi, hbe⟩ | ⟨hi, hbo⟩
        · subst hbe
          rw [scanAndRunTask_keep] at ht2
          obtain ⟨t0, ht0, hte⟩ := List.mem_map.mp ht2
          exact ⟨l, t0, hi ▸ hl2.2, List.mem_of_mem_filter ht0, Or.inr hte.symm⟩
        · exact ⟨b2, t2, hbo, ht2, Or.inl rfl⟩
  | add task =>
    simp only [run] at h
    cases hr : addTask w task with
    | none => rw [hr] at h; exact absurd h (by simp)
    | some w1 =>
      rw [hr] at h
      dsimp only at h
      have he := (Prod.mk.inj (Option.some.inj h)).1
      subst he
      obtain ⟨pc, l, -, hl, hs, -, -, -, -⟩ := addTask_some hr
      have hl2 := slotAt_eq_some.mp hl
      refine ⟨?_, ?_, ?_⟩
      · intro hk
        exact absurd hk (by simp)
      · intro key hk
        exact absurd hk (by simp)
      · intro i b2 t2 hb ht2
        rw [hs] at hb
        rcases getElem?_set_some hb with ⟨hi, hbe⟩ | ⟨hi, hbo⟩
        · subst hbe
          rcases List.mem_append.mp ht2 with hm | hm
          · exact Or.inl ⟨l, t2, hi ▸ hl2.2, hm, Or.inl rfl⟩
          · exact Or.inr ⟨task, pc.2, rfl, List.mem_singleton.mp hm⟩
        · exact Or.inl ⟨b2, t2, hbo, ht2, Or.inl rfl⟩
  | remove key =>
    simp only [run] at h
    cases hr : removeTask w key with
    | none => rw [hr] at h; exact absurd h (by simp)
    | some r =>
      rw [hr] at h
      dsimp only at h
      have he := (Prod.mk.inj (Option.some.inj h)).1
      subst he
      rcases removeTask_some hr with ⟨-, hre⟩ | ⟨pos, l, htk, hl, hs, -, -, -, -, -⟩
      · rw [hre]
        refine ⟨fun _ _ _ => rfl, fun _ _ _ _ => rfl, ?_⟩
        intro i b2 t2 hb ht2
        exact Or.inl ⟨b2, t2, hb, ht2, Or.inl rfl⟩
      · have hl2 := slotAt_eq_some.mp hl
        refine ⟨?_, ?_, ?_⟩
        · intro hk
          exact absurd hk (by simp)
        · intro key2 hk i hi
          have hkk : key = key2 := by
            injection hk
          subst hkk
          rw [hs]
          apply List.getElem?_set_ne
          intro e
          apply hi
          rw [htk, ← e, Int.toNat_of_nonneg hl2.1]
        · intro i b2 t2 hb ht2
          left
          rw [hs] at hb
          rcases getElem?_set_some hb with ⟨hi, hbe⟩ | ⟨hi, hbo⟩
          · subst hbe
            exact ⟨l, t2, hi ▸ hl2.2, (removeScan_sublist key l).subset ht2, Or.inl rfl⟩
          · exact ⟨b2, t2, hbo, ht2, Or.inl rfl⟩

/-- Witness for C17: a tick on a wheel whose current bucket holds a task with
two revolutions left. -/
theorem tasks_never_move_witness :
    ∃ s tr, run wheelF [Event.tick] = some (s, tr) ∧
      ((Event.tick : Event Nat Nat) = Event.tick →
        ∀ i : Nat, i ≠ wheelF.currentPosition.toNat → s.slots[i]? = wheelF.slots[i]?) ∧
      (∀ (i : Nat) (b2 : List (TimeTask Nat Nat)) (t2 : TimeTask Nat Nat),
        s.slots[i]? = some b2 → t2 ∈ b2 →
          (∃ b t, wheelF.slots[i]? = some b ∧ t ∈ b ∧
            (t2 = t ∨ t2 = { t with circle := t.circle - 1 })) ∨
          (∃ task c, (Event.tick : Event Nat Nat) = Event.add task ∧
            t2 = { task with circle := c })) :=
  ⟨_, _, rfl, (tasks_never_move wheelF _ Event.tick _ rfl).1,
    (tasks_never_move wheelF _ Event.tick _ rfl).2.2⟩

/-! ## Registry entries point at a task -/

theorem slotAt_set_ne {slots : List (List (TimeTask K D))} {n : Nat} {p : Int}
    {c : List (TimeTask K D)} (h : p.toNat ≠ n) :
    slotAt (slots.set n c) p = slotAt slots p := by
  unfold slotAt
  by_cases hp : 0 ≤ p
  · rw [if_pos hp, if_pos hp]
    exact List.getElem?_set_ne (fun e => h e.symm)
  · rw [if_neg hp, if_neg hp]

theorem mem_removeScan_of_ne (key : Option K) (l : List (TimeTask K D)) (y : TimeTask K D)
    (hy : y ∈ l) (hk : y.key ≠ key) : y ∈ (removeScan key l).2 := by
  induction l with
  | nil => exact absurd hy (List.not_mem_nil y)
  | cons x rest ih =>
    by_cases hx : x.key = key
    · simp only [removeScan, hx, if_true]
      rcases List.mem_cons.mp hy with e | e
      · rw [e] at hk; exact absurd hx hk
      · exact e
    · simp only [removeScan, hx, if_false]
      rcases List.mem_cons.mp hy with e | e
      · rw [e]; exact List.mem_cons_self x _
      · exact List.mem_cons_of_mem x (ih e)

theorem RegInv_addTask {w w1 : TimeWheel K D} {task : TimeTask K D} (hinv : RegInv w)
    (h : addTask w task = some w1) : RegInv w1 := by
  obtain ⟨pc, l, -, hl, hs, ht, -, -, -⟩ := addTask_some h
  have hl2 := slotAt_eq_some.mp hl
  have hold : ∀ (k : Option K) (p : Int), w.timer k = some p →
      k ≠ none ∧ ∃ l, slotAt w1.slots p = some l ∧ ∃ t ∈ l, t.key = k := by
    intro k p hkp
    obtain ⟨hk, l0, hl0, t, ht0, htk⟩ := hinv k p hkp
    refine ⟨hk, ?_⟩
    by_cases hp : p = pc.1
    · subst hp
      rw [hl] at hl0
      have hle := Option.some.inj hl0
      subst hle
      exact ⟨_, by rw [hs]; exact slotAt_set_self hl, t, List.mem_append_left _ ht0, htk⟩
    · refine ⟨l0, ?_, t, ht0, htk⟩
      rw [hs, slotAt_set_ne]
      · exact hl0
      · have hp0 := (slotAt_eq_some.mp hl0).1
        intro e
        apply hp
        omega
  intro k p hkp
  rw [ht] at hkp
  by_cases hkey : task.key.isSome = true
  · rw [if_pos hkey] at hkp
    unfold timerSet at hkp
    by_cases hkk : k = task.key
    · rw [if_pos hkk] at hkp
      have hpe : pc.1 = p := Option.some.inj hkp
      subst hpe
      refine ⟨by rw [hkk]; exact Option.isSome_iff_ne_none.mp hkey, _,
        by rw [hs]; exact slotAt_set_self hl, { task with circle := pc.2 },
        List.mem_append_right _ (List.mem_singleton.mpr rfl), hkk.symm⟩
    · rw [if_neg hkk] at hkp
      exact hold k p hkp
  · rw [if_neg hkey] at hkp
    exact hold k p hkp

theorem RegInv_removeTask {w : TimeWheel K D} {key : Option K}
    {r : TimeWheel K D × List (TimeTask K D)} (hinv : RegInv w)
    (h : removeTask w key = some r) : RegInv r.1 := by
  rcases removeTask_some h with ⟨-, hr⟩ | ⟨pos, l, -, hl, hs, ht, -, -, -, -⟩
  · rw [hr]; exact hinv
  · have hl2 := slotAt_eq_some.mp hl
    intro k p hkp
    rw [ht] at hkp
    have hkp2 : w.timer k = some p ∧
        ((removeScan key l).1.isEmpty = true ∨ k ≠ key) := by
      by_cases he : (removeScan key l).1.isEmpty = true
      · rw [if_pos he] at hkp
        exact ⟨hkp, Or.inl he⟩
      · rw [if_neg he] at hkp
        unfold timerDelete at hkp
        by_cases hkk : k = key
        · rw [if_pos hkk] at hkp
          exact absurd hkp (by simp)
        · rw [if_neg hkk] at hkp
          exact ⟨hkp, Or.inr hkk⟩
    obtain ⟨hk, l0, hl0, t, ht0, htk⟩ := hinv k p hkp2.1
    refine ⟨hk, ?_⟩
    by_cases hp : p = pos
    · subst hp
      rw [hl] at hl0
      have hle := Option.some.inj hl0
      subst hle
      refine ⟨_, by rw [hs]; exact slotAt_set_self hl, t, ?_, htk⟩
      rcases hkp2.2 with he | hkk
      · rw [(removeScan_none_removed key l he).1]
        exact ht0
      · exact mem_removeScan_of_ne key l t ht0 (by rw [htk]; exact hkk)
    · refine ⟨l0, ?_, t, ht0, htk⟩
      rw [hs, slotAt_set_ne]
      · exact hl0
      · have hp0 := (slotAt_eq_some.mp hl0).1
        intro e
        apply hp
        omega

theorem RegInv_tickHandler {w : TimeWheel K D}
    {r : TimeWheel K D × List (TimeTask K D)} (hinv : RegInv w)
    (h : tickHandler w = some r) : RegInv r.1 := by
  obtain ⟨l, hl, hs, ht, -, -, -, -⟩ := tickHandler_some h
  have hl2 := slotAt_eq_some.mp hl
  intro k p hkp
  rw [ht] at hkp
  have hkp0 := scanAndRunTask_timer_some w.timer l k p hkp
  obtain ⟨hk, l0, hl0, t, ht0, htk⟩ := hinv k p hkp0
  refine ⟨hk, ?_⟩
  by_cases hp : p = w.currentPosition
  · subst hp
    rw [hl] at hl0
    have hle := Option.some.inj hl0
    subst hle
    by_cases hc : 0 < t.circle
    · refine ⟨_, by rw [hs]; exact slotAt_set_self hl, { t with circle := t.circle - 1 },
        ?_, htk⟩
      rw [scanAndRunTask_keep]
      exact List.mem_map.mpr ⟨t, List.mem_filter.mpr ⟨ht0, by simpa using hc⟩, rfl⟩
    · have hdel := scanAndRunTask_timer_deleted w.timer l t ht0 hc
        (Option.isSome_iff_ne_none.mpr (by rw [htk]; exact hk))
      rw [htk, hkp] at hdel
      exact absurd hdel (by simp)
  · refine ⟨l0, ?_, t, ht0, htk⟩
    rw [hs, slotAt_set_ne]
    · exact hl0
    · have hp0 := (slotAt_eq_some.mp hl0).1
      intro e
      apply hp
      omega

theorem RegInv_run {w s : TimeWheel K D} {evs : List (Event K D)}
    {tr : List (List (TimeTask K D))} (hinv : RegInv w) (h : run w evs = some (s, tr)) :
    RegInv s := by
  induction evs generalizing w tr with
  | nil =>
    simp only [run] at h
    rw [← (Prod.mk.inj (Option.some.inj h)).1]; exact hinv
  | cons e evs ih =>
    cases e with
    | tick =>
      simp only [run] at h
      cases hr : tickHandler w with
      | none => rw [hr] at h; exact absurd h (by simp)
      | some r =>
        rw [hr] at h
        dsimp only at h
        cases hr2 : run r.1 evs with
        | none => rw [hr2] at h; exact absurd h (by simp)
        | some r2 =>
          rw [hr2] at h
          dsimp only at h
          have he := Prod.mk.inj (Option.some.inj h)
          exact ih (RegInv_tickHandler hinv hr) (by rw [hr2, ← he.1])
    | add task =>
      simp only [run] at h
      cases hr : addTask w task with
      | none => rw [hr] at h; exact absurd h (by simp)
      | some w1 =>
        rw [hr] at h
        exact ih (RegInv_addTask hinv hr) h
    | remove key =>
      simp only [run] at h
      cases hr : removeTask w key with
      | none => rw [hr] at h; exact absurd h (by simp)
      | some r =>
        rw [hr] at h
        exact ih (RegInv_removeTask hinv hr) h

theorem RegInv_new {J : Type} {maxSlots interval slotNum : Int} {job : Option J}
    {w : TimeWheel K D} (h : NewTimeWheel maxSlots interval slotNum job = some (some w)) :
    RegInv w := by
  obtain ⟨-, -, -, -, hw⟩ := NewTimeWheel_some h
  subst hw
  · intro k p hkp
    exact absurd hkp (by simp)

theorem exists_first_with_key (key : Option K) (l : List (TimeTask K D))
    (h : ∃ t ∈ l, t.key = key) :
    ∃ l1 t l2, l = l1 ++ t :: l2 ∧ t.key = key ∧ ∀ y ∈ l1, y.key ≠ key := by
  induction l with
  | nil =>
    obtain ⟨t, ht, -⟩ := h
    exact absurd ht (List.not_mem_nil t)
  | cons x rest ih =>
    by_cases hx : x.key = key
    · exact ⟨[], x, rest, rfl, hx, fun y hy => absurd hy (List.not_mem_nil y)⟩
    · obtain ⟨t, ht, htk⟩ := h
      have hrest : ∃ t ∈ rest, t.key = key := by
        rcases List.mem_cons.mp ht with e | e
        · rw [e] at htk
          exact absurd htk hx
        · exact ⟨t, e, htk⟩
      obtain ⟨l1, t1, l2, hl, ht1, hl1⟩ := ih hrest
      refine ⟨x :: l1, t1, l2, by rw [hl]; rfl, ht1, ?_⟩
      intro y hy
      rcases List.mem_cons.mp hy with e | e
      · rw [e]; exact hx
      · exact hl1 y e

/-- C19: in every state reached from a newly constructed wheel, every registry
entry `k -> p` has `0 <= p < slotNum` and the bucket of slot `p` holds a task
with key `k`; hence `removeTask` never faults there: for a key without entry
it returns with the wheel unchanged, and for a key with entry `p` it takes the
first task with that key out of the bucket of slot `p` (the bucket
`l1 ++ t :: l2` becomes `l1 ++ l2`) and deletes the entry. -/
theorem registry_entries_valid {J : Type} (maxSlots interval slotNum : Int)
    (job : Option J)
    (w s : TimeWheel K D) (evs : List (Event K D)) (tr : List (List (TimeTask K D)))
    (hnew : NewTimeWheel maxSlots interval slotNum job = some (some w))
    (hrun : run w evs = some (s, tr)) :
    (∀ (k : Option K) (p : Int), s.timer k = some p →
      0 ≤ p ∧ p < s.slotNum ∧ ∃ l, slotAt s.slots p = some l ∧ ∃ t ∈ l, t.key = k) ∧
    (∀ key, s.timer key = none → removeTask s key = some (s, [])) ∧
    (∀ (key : Option K) (p : Int), s.timer key = some p →
      ∃ r l1 t l2, removeTask s key = some r ∧
        slotAt s.slots p = some (l1 ++ t :: l2) ∧ t.key = key ∧
        (∀ y ∈ l1, y.key ≠ key) ∧
        slotAt r.1.slots p = some (l1 ++ l2) ∧
        (∀ i : Nat, i ≠ p.toNat → r.1.slots[i]? = s.slots[i]?) ∧
        r.1.timer key = none ∧
        r.2 = [{ t with isActive := false }]) := by
  have hwf := WF_run (WF_new hnew) hrun
  have hreg := RegInv_run (RegInv_new hnew) hrun
  refine ⟨?_, ?_, ?_⟩
  · intro k p hkp
    have h1 := hwf.2.2.2.2.2 k p hkp
    exact ⟨h1.1, h1.2, (hreg k p hkp).2⟩
  · intro key hk
    unfold removeTask
    rw [hk]
  · intro key p hkp
    obtain ⟨-, l, hl, hex⟩ := hreg key p hkp
    obtain ⟨l1, t, l2, hle, htk, hl1⟩ := exists_first_with_key key l hex
    subst hle
    have hscan := removeScan_append_first key l1 l2 t hl1 htk
    have hr : removeTask s key = some ({ s with
        slots := s.slots.set p.toNat (l1 ++ l2)
        timer := timerDelete s.timer key }, [{ t with isActive := false }]) := by
      unfold removeTask
      rw [hkp]
      dsimp only
      rw [hl]
      dsimp only
      rw [hscan]
      rfl
    refine ⟨_, l1, t, l2, hr, hl, htk, hl1, slotAt_set_self hl, ?_, ?_, rfl⟩
    · intro i hi
      exact List.getElem?_set_ne (fun e => hi e.symm)
    · show timerDelete s.timer key key = none
      unfold timerDelete
      rw [if_pos rfl]

/-- Witness for C19: after two adds with key 7 on a new 4-slot wheel the entry
for 7 is slot 2; `removeTask(7)` empties the bucket of slot 2 and deletes the
entry. -/
theorem registry_entries_valid_witness :
    run (freshWheel 1000000000 4) [Event.add taskA, Event.add taskB] = some (wheelH, []) ∧
      wheelH.timer (some 7) = some 2 ∧
      ∃ r l1 t l2, removeTask wheelH (some 7) = some r ∧
        slotAt wheelH.slots 2 = some (l1 ++ t :: l2) ∧ t.key = some 7 ∧
        (∀ y ∈ l1, y.key ≠ some 7) ∧
        slotAt r.1.slots 2 = some (l1 ++ l2) ∧
        (∀ i : Nat, i ≠ (2 : Int).toNat → r.1.slots[i]? = wheelH.slots[i]?) ∧
        r.1.timer (some 7) = none ∧
        r.2 = [{ t with isActive := false }] :=
  ⟨rfl, rfl, (registry_entries_valid maxSliceLen 1000000000 4 (some ())
    (freshWheel 1000000000 4) wheelH
    [Event.add taskA, Event.add taskB] [] rfl rfl).2.2 (some 7) 2 rfl⟩

/-! ## Scheduled tasks are active -/

theorem getPositionAndCircle_some {w : TimeWheel K D} {d : Int} {pc : Int × Int}
    (h : getPositionAndCircle w d = some pc) :
    Seconds w.tickInterval ≠ 0 ∧ w.slotNum ≠ 0 ∧
      pc.2 = ((Seconds d).tdiv (Seconds w.tickInterval)).tdiv w.slotNum ∧
      pc.1 = (w.currentPosition + (Seconds d).tdiv (Seconds w.tickInterval)).tmod
        w.slotNum := by
  unfold getPositionAndCircle at h
  by_cases hz : Seconds w.tickInterval = 0 ∨ w.slotNum = 0
  · simp only [hz, if_true] at h
    exact absurd h (by simp)
  · simp only [hz, if_false] at h
    have hpc := Option.some.inj h
    rw [← hpc]
    exact ⟨fun e => hz (Or.inl e), fun e => hz (Or.inr e), rfl, rfl⟩

theorem AddTimer_task {id : Nat} {d : Int} {key : Option K} {data : D} {t : TimeTask K D}
    (h : AddTimer id d key data = [Event.add t]) : t.isActive = true ∧ 0 < t.delay := by
  unfold AddTimer at h
  by_cases hd : d ≤ 0
  · rw [if_pos hd] at h
    exact absurd h (by simp)
  · rw [if_neg hd] at h
    have he : Event.add _ = Event.add t := (List.cons.inj h).1
    injection he with he2
    rw [← he2]
    exact ⟨rfl, by show 0 < d; omega⟩

theorem ActInv_addTask {w w1 : TimeWheel K D} {task : TimeTask K D} (hwf : WF w)
    (hinv : ActInv w) (hact : task.isActive = true) (hd : 0 ≤ task.delay)
    (h : addTask w task = some w1) : ActInv w1 := by
  obtain ⟨pc, l, hpc, hl, hs, -, -, -, -⟩ := addTask_some h
  have hl2 := slotAt_eq_some.mp hl
  obtain ⟨-, -, hc, -⟩ := getPositionAndCircle_some hpc
  have hk : 0 ≤ (Seconds task.delay).tdiv (Seconds w.tickInterval) := by
    rw [Int.tdiv_eq_ediv (Seconds_nonneg hd) (Seconds_nonneg (le_of_lt hwf.1))]
    exact Int.ediv_nonneg (Seconds_nonneg hd) (Seconds_nonneg (le_of_lt hwf.1))
  have hcirc : 0 ≤ pc.2 := by
    rw [hc, Int.tdiv_eq_ediv hk (le_of_lt hwf.2.1)]
    exact Int.ediv_nonneg hk (le_of_lt hwf.2.1)
  intro i b hb t ht
  rw [hs] at hb
  rcases getElem?_set_some hb with ⟨hi, hbe⟩ | ⟨hi, hbo⟩
  · subst hbe
    rcases List.mem_append.mp ht with hm | hm
    · exact hinv _ l hl2.2 t hm
    · rw [List.mem_singleton.mp hm]
      exact ⟨hact, hcirc⟩
  · exact hinv i b hbo t ht

theorem ActInv_removeTask {w : TimeWheel K D} {key : Option K}
    {r : TimeWheel K D × List (TimeTask K D)} (hinv : ActInv w)
    (h : removeTask w key = some r) : ActInv r.1 := by
  rcases removeTask_some h with ⟨-, hr⟩ | ⟨pos, l, -, hl, hs, -, -, -, -, -⟩
  · rw [hr]; exact hinv
  · have hl2 := slotAt_eq_some.mp hl
    intro i b hb t ht
    rw [hs] at hb
    rcases getElem?_set_some hb with ⟨hi, hbe⟩ | ⟨hi, hbo⟩
    · subst hbe
      exact hinv _ l hl2.2 t ((removeScan_sublist key l).subset ht)
    · exact hinv i b hbo t ht

theorem ActInv_tickHandler {w : TimeWheel K D}
    {r : TimeWheel K D × List (TimeTask K D)} (hinv : ActInv w)
    (h : tickHandler w = some r) : ActInv r.1 := by
  obtain ⟨l, hl, hs, -, -, -, -, -⟩ := tickHandler_some h
  have hl2 := slotAt_eq_some.mp hl
  intro i b hb t ht
  rw [hs] at hb
  rcases getElem?_set_some hb with ⟨hi, hbe⟩ | ⟨hi, hbo⟩
  · subst hbe
    rw [scanAndRunTask_keep] at ht
    obtain ⟨t0, ht0, hte⟩ := List.mem_map.mp ht
    have hc : 0 < t0.circle := by simpa using (List.mem_filter.mp ht0).2
    have h0 := hinv _ l hl2.2 t0 (List.mem_of_mem_filter ht0)
    rw [← hte]
    exact ⟨h0.1, by show 0 ≤ t0.circle - 1; omega⟩
  · exact hinv i b hbo t ht

theorem ActInv_run {w s : TimeWheel K D} {evs : List (Event K D)}
    {tr : List (List (TimeTask K D))} (hwf : WF w) (hinv : ActInv w)
    (hadds : ∀ t2, Event.add t2 ∈ evs → t2.isActive = true ∧ 0 < t2.delay)
    (h : run w evs = some (s, tr)) : ActInv s := by
  induction evs generalizing w tr with
  | nil =>
    simp only [run] at h
    rw [← (Prod.mk.inj (Option.some.inj h)).1]; exact hinv
  | cons e evs ih =>
    have hrest : ∀ t2, Event.add t2 ∈ evs → t2.isActive = true ∧ 0 < t2.delay :=
      fun t2 ht2 => hadds t2 (List.mem_cons_of_mem e ht2)
    cases e with
    | tick =>
      simp only [run] at h
      cases hr : tickHandler w with
      | none => rw [hr] at h; exact absurd h (by simp)
      | some r =>
        rw [hr] at h
        dsimp only at h
        cases hr2 : run r.1 evs with
        | none => rw [hr2] at h; exact absurd h (by simp)
        | some r2 =>
          rw [hr2] at h
          dsimp only at h
          have he := Prod.mk.inj (Option.some.inj h)
          exact ih (WF_of_tickHandler hwf hr) (ActInv_tickHandler hinv hr) hrest
            (by rw [hr2, ← he.1])
    | add task =>
      simp only [run] at h
      cases hr : addTask w task with
      | none => rw [hr] at h; exact absurd h (by simp)
      | some w1 =>
        rw [hr] at h
        have ha := hadds task (List.mem_cons_self _ _)
        exact ih (WF_of_addTask hwf hr)
          (ActInv_addTask hwf hinv ha.1 (le_of_lt ha.2) hr) hrest h
    | remove key =>
      simp only [run] at h
      cases hr : removeTask w key with
      | none => rw [hr] at h; exact absurd h (by simp)
      | some r =>
        rw [hr] at h
        exact ih (WF_of_removeTask hwf hr) (ActInv_removeTask hinv hr) hrest h

theorem ActInv_new {J : Type} {maxSlots interval slotNum : Int} {job : Option J}
    {w : TimeWheel K D} (h : NewTimeWheel maxSlots interval slotNum job = some (some w)) :
    ActInv w := by
  obtain ⟨-, -, -, -, hw⟩ := NewTimeWheel_some h
  subst hw
  · intro i b hb t ht
    rw [List.getElem?_replicate] at hb
    split at hb
    · rw [← Option.some.inj hb] at ht
      exact absurd ht (List.not_mem_nil t)
    · exact absurd hb (by simp)

/-- C20: in every state reached from a newly constructed wheel by add requests
that `AddTimer` produced, remove requests and ticks, every task in a bucket has
`isActive = true` and `circle >= 0`; hence the next tick (which is always
processed) dispatches every task it takes out of the current bucket: the
dispatched tasks are exactly the tasks of the bucket without `circle > 0`, and
those with `circle > 0` are the ones that stay. -/
theorem bucket_tasks_active {J : Type} (maxSlots interval slotNum : Int) (job : Option J)
    (w s : TimeWheel K D) (evs : List (Event K D)) (tr : List (List (TimeTask K D)))
    (hnew : NewTimeWheel maxSlots interval slotNum job = some (some w))
    (hadds : ∀ t2, Event.add t2 ∈ evs →
      ∃ id key data, AddTimer id t2.delay key data = [Event.add t2])
    (hrun : run w evs = some (s, tr)) :
    (∀ (i : Nat) (b : List (TimeTask K D)), s.slots[i]? = some b →
      ∀ t ∈ b, t.isActive = true ∧ 0 ≤ t.circle) ∧
    ∃ l r, slotAt s.slots s.currentPosition = some l ∧ tickHandler s = some r ∧
      r.2 = l.filter (fun t => !decide (0 < t.circle)) ∧
      slotAt r.1.slots s.currentPosition =
        some ((l.filter (fun t => decide (0 < t.circle))).map
          (fun t => { t with circle := t.circle - 1 })) := by
  have hwf := WF_run (WF_new hnew) hrun
  have hact : ActInv s := by
    refine ActInv_run (WF_new hnew) (ActInv_new hnew) ?_ hrun
    intro t2 ht2
    obtain ⟨id, key, data, he⟩ := hadds t2 ht2
    exact AddTimer_task he
  refine ⟨hact, ?_⟩
  obtain ⟨r, hr, -⟩ := WF_tickHandler hwf
  obtain ⟨l, hl, hs, -, -, -, -, hf⟩ := tickHandler_some hr
  have hl2 := slotAt_eq_some.mp hl
  refine ⟨l, r, hl, hr, ?_, ?_⟩
  · rw [hf, scanAndRunTask_fired]
    apply List.filter_congr
    intro t ht
    rw [(hact _ l hl2.2 t ht).1, Bool.and_true]
  · rw [hs, ← scanAndRunTask_keep s.timer l]
    exact slotAt_set_self hl

/-- Witness for C20: the state after `AddTimer(1s, 7, 10)` and one tick. -/
theorem bucket_tasks_active_witness :
    run (freshWheel 1000000000 4) [Event.add taskA, Event.tick] = some (wheelG, [[]]) ∧
      (∀ (i : Nat) (b : List (TimeTask Nat Nat)), wheelG.slots[i]? = some b →
        ∀ t ∈ b, t.isActive = true ∧ 0 ≤ t.circle) ∧
      ∃ l r, slotAt wheelG.slots wheelG.currentPosition = some l ∧
        tickHandler wheelG = some r ∧
        r.2 = l.filter (fun t => !decide (0 < t.circle)) ∧
        slotAt r.1.slots wheelG.currentPosition =
          some ((l.filter (fun t => decide (0 < t.circle))).map
            (fun t => { t with circle := t.circle - 1 })) :=
  ⟨rfl, bucket_tasks_active maxSliceLen 1000000000 4 (some ()) (freshWheel 1000000000 4) wheelG
    [Event.add taskA, Event.tick] [[]] rfl
    (by
      intro t2 h2
      have h3 : t2 = taskA := by simpa using h2
      rw [h3]
      exact ⟨0, some 7, 10, rfl⟩)
    rfl⟩

end TW
